import Mathlib

/-!
Verification development for the Agent-Based Disaster Response Simulation
(Python source: Agents.py, World.py, WorldHandlers.py, WorldEvents.py).

The Python code is shallowly embedded: pure functions become Lean functions,
stateful methods become explicit state-passing functions, Python exceptions
become `Except`, unbounded loops take an explicit fuel parameter, and
`math.inf` sentinels become `Option` values.  Grid coordinates are pairs of
integers `(y, x)` exactly as in the source.
-/

namespace DisasterSim

/-- Grid coordinate `(y, x)`, as used throughout the Python source. -/
abbrev Coord : Type := ℤ × ℤ

/-- Runtime errors a Python method of this program can raise. -/
inductive Err : Type
  | indexError
  | keyError
  | typeError
  | valueError
  deriving DecidableEq, Repr

/-- Civilian.HealthState (Agents.py lines 219-224). -/
inductive HealthState : Type
  | healthy
  | sick
  | injured
  | gravelyInjured
  | deceased
  deriving DecidableEq, Repr

/-- Civilian.Pattern (Agents.py lines 213-216). -/
inductive Pattern : Type
  | wander
  | flee
  | safe
  deriving DecidableEq, Repr

/-- Numeric severity of a health state, the enum value from the source;
larger means more severe, `deceased` most severe. -/
def HealthState.severity : HealthState → ℕ
  | .healthy => 1
  | .sick => 2
  | .injured => 3
  | .gravelyInjured => 4
  | .deceased => 5

/-- Civilian.set_injury (Agents.py lines 425-452): the health transition
function.  First branch: incoming DECEASED or current GRAVELY_INJURED gives
DECEASED; second: incoming INJURED on HEALTHY gives INJURED; otherwise
GRAVELY_INJURED. -/
def setInjury (current incoming : HealthState) : HealthState :=
  if incoming = .deceased ∨ current = .gravelyInjured then .deceased
  else if incoming = .injured ∧ current = .healthy then .injured
  else .gravelyInjured

/-- Civilian.worsen_health (Agents.py lines 456-495) acting on the pair
(health_state, time_to_worsen); `none` models the `math.inf` sentinel of
`time_to_worsen`.  HEALTHY, SICK and DECEASED return unchanged; INJURED
initializes the countdown to 60, escalates through set_injury at 0 and
resets the countdown to 20, otherwise decrements; GRAVELY_INJURED
initializes to 20, escalates to DECEASED at 0, otherwise decrements. -/
def worsenHealth (h : HealthState) (t : Option ℕ) : HealthState × Option ℕ :=
  match h with
  | .healthy => (h, t)
  | .sick => (h, t)
  | .deceased => (h, t)
  | .injured =>
      match t with
      | none => (.injured, some 60)
      | some 0 => (setInjury .injured .gravelyInjured, some 20)
      | some (k+1) => (.injured, some k)
  | .gravelyInjured =>
      match t with
      | none => (.gravelyInjured, some 20)
      | some 0 => (setInjury .gravelyInjured .deceased, some 0)
      | some (k+1) => (.gravelyInjured, some k)

/-- The effect of one Civilian.update tick (Agents.py lines 235-240) on the
pair (health_state, time_to_worsen) for a civilian whose pattern is not SAFE
and that receives no external injury during the tick: update returns
immediately when health is DECEASED or GRAVELY_INJURED (so worsen_health is
never called for them), otherwise worsen_health runs. -/
def civHealthTick (s : HealthState × Option ℕ) : HealthState × Option ℕ :=
  if s.1 = .deceased ∨ s.1 = .gravelyInjured then s
  else worsenHealth s.1 s.2

/-- One civHealthTick step never produces DECEASED from a non-DECEASED state:
once GRAVELY_INJURED, the update gate freezes the agent before worsen_health
could ever fire the GRAVELY_INJURED to DECEASED escalation. -/
theorem civHealthTick_ne_deceased (s : HealthState × Option ℕ)
    (h : s.1 ≠ .deceased) : (civHealthTick s).1 ≠ .deceased := by
  obtain ⟨hs, t⟩ := s
  cases hs <;> rcases t with _ | (_ | k) <;>
    simp [civHealthTick, worsenHealth, setInjury] at h ⊢

/-- C1: set_injury applied to a DECEASED civilian with incoming INJURED
falls through to the final else branch and yields GRAVELY_INJURED — the
terminal DECEASED state is left, its severity strictly decreases, so
DECEASED is not absorbing and the transition function is not monotone
toward DECEASED. -/
theorem C1_deceased_not_absorbing :
    setInjury .deceased .injured = .gravelyInjured ∧
    (setInjury .deceased .injured).severity < HealthState.deceased.severity := by
  decide

set_option maxRecDepth 4000 in
/-- C3: starting from a freshly INJURED civilian (countdown unset) with the
tick loop calling update once per tick and no external injury, the embedded
code is still INJURED after 60 ticks (not GRAVELY_INJURED as claimed),
becomes GRAVELY_INJURED only on tick 62 (one tick is consumed initializing
the countdown to 60, and the escalation fires on the tick after the
countdown reaches 0), and is never DECEASED — in particular not at tick 80 —
because update returns early for GRAVELY_INJURED agents and never calls
worsen_health on them. -/
theorem C3_deterioration_timing :
    (civHealthTick^[60] (.injured, none)).1 = .injured ∧
    (civHealthTick^[61] (.injured, none)).1 = .injured ∧
    (civHealthTick^[62] (.injured, none)).1 = .gravelyInjured ∧
    (civHealthTick^[80] (.injured, none)).1 = .gravelyInjured ∧
    (∀ n : ℕ, (civHealthTick^[n] (.injured, none)).1 ≠ .deceased) := by
  refine ⟨by decide, by decide, by decide, by decide, ?_⟩
  intro n
  induction n with
  | zero => decide
  | succ k ih =>
      rw [Function.iterate_succ_apply']
      exact civHealthTick_ne_deceased _ ih

/-! ### Python sequence primitives

The perception window (World.set_perception, line 160) and the disaster
impact window (WorldHandlers.injure_near_disaster, line 48) are both built
with the numpy slice `arr[v-3 : v+4]`, which follows Python slice
semantics: a negative endpoint is first shifted by the sequence length and
the endpoints are then clamped to `[0, n]`. -/

/-- Index normalization of a Python slice endpoint on a sequence of length
`n`: negative values are shifted by `n`, then the result is clamped to
`[0, n]`. -/
def pySliceNorm (v : ℤ) (n : ℕ) : ℕ :=
  (if v < 0 then v + n else v).toNat.min n

/-- The list of indices selected by the Python slice `xs[a:b]` (step 1) on a
sequence of length `n`: the contiguous range from the normalized start to
the normalized stop (empty when start is at or past stop). -/
def pySliceIdx (a b : ℤ) (n : ℕ) : List ℕ :=
  List.range' (pySliceNorm a n) (pySliceNorm b n - pySliceNorm a n)

/-- Row (or column) indices of the 7-wide window `arr[v-3 : v+4]` used for
both the perception window and the disaster-impact window, for a center
coordinate `v` on an axis of length `n`. -/
def windowIdx (v : ℤ) (n : ℕ) : List ℕ :=
  pySliceIdx (v - 3) (v + 4) n

/-- The true intersection of the 7-cell window centered at `v` with the
axis `[0, n)` — this is the comparison definition following the spec's
words ("the resulting view is the true intersection of the 7x7 square with
the grid"), to be compared with `windowIdx`, the definition from the
source. -/
def windowIdxSpec (v : ℤ) (n : ℕ) : List ℕ :=
  (List.range n).filter (fun i => v - 3 ≤ (i : ℤ) ∧ (i : ℤ) ≤ v + 3)

/-- C7: on a 10-row grid, the window for a center at the low edge (y = 0)
is empty — the slice `[-3 : 4]` normalizes to `[7 : 4]` — while the true
intersection is rows 0..3; the same holds at y = 1 and y = 2. At the high
edge (y = 9) the slice does clamp to the true intersection. So windows near
the low grid edges are not the claimed clamped intersection (and the same
slice feeds the disaster-impact window, which is therefore empty for a
disaster within 3 cells of a low edge). -/
theorem C7_low_edge_window_not_clamped :
    windowIdx 0 10 = [] ∧ windowIdxSpec 0 10 = [0, 1, 2, 3] ∧
    windowIdx 2 10 = [] ∧ windowIdxSpec 2 10 = [0, 1, 2, 3, 4, 5] ∧
    windowIdx 9 10 = [6, 7, 8, 9] ∧ windowIdxSpec 9 10 = [6, 7, 8, 9] := by
  decide

/-! ### Flee-target selection (Civilian.find_target, FLEE branch) -/

/-- Chebyshev distance between two coordinates, as computed with
`max(abs(.), abs(.))` in the source. -/
def cheb (a b : Coord) : ℕ :=
  max (a.1 - b.1).natAbs (a.2 - b.2).natAbs

/-- Python list indexing `l[i]`: a negative index is shifted by the length,
an index then out of range raises IndexError. -/
def pyGet (l : List α) (i : ℤ) : Except Err α :=
  let j : ℤ := if i < 0 then i + l.length else i
  if h : 0 ≤ j ∧ j.toNat < l.length then .ok (l.get ⟨j.toNat, h.2⟩)
  else .error .indexError

/-- Lazy population of the shared safe-cell list (Agents.py lines 279-306):
scan all road cells for the maximal y and x (starting from 0), then collect,
in source order, road cells on the column x_size and the column 0 for each
row index up to y_size, followed by road cells on the row y_size and the
row 0 for each column index up to x_size. -/
def populateSafeCells (roadCells : List Coord) : List Coord :=
  let ySize : ℤ := roadCells.foldl (fun a c => if c.1 > a then c.1 else a) 0
  let xSize : ℤ := roadCells.foldl (fun a c => if c.2 > a then c.2 else a) 0
  ((List.range (ySize.toNat + 1)).flatMap (fun i =>
      (if ((i : ℤ), xSize) ∈ roadCells then [((i : ℤ), xSize)] else []) ++
      (if ((i : ℤ), (0 : ℤ)) ∈ roadCells then [((i : ℤ), (0 : ℤ))] else []))) ++
  ((List.range (xSize.toNat + 1)).flatMap (fun j =>
      (if (ySize, (j : ℤ)) ∈ roadCells then [(ySize, (j : ℤ))] else []) ++
      (if ((0 : ℤ), (j : ℤ)) ∈ roadCells then [((0 : ℤ), (j : ℤ))] else [])))

/-- The component-wise away-from-disaster filter used on candidate safe
cells (Agents.py lines 319-334): on each axis, if the disaster coordinate is
at or below the agent's, the candidate must be at or above the agent's, and
conversely. -/
def fleeEligible (loc disasterLoc e : Coord) : Bool :=
  (if disasterLoc.1 ≤ loc.1 then e.1 ≥ loc.1 else e.1 ≤ loc.1) &&
  (if disasterLoc.2 ≤ loc.2 then e.2 ≥ loc.2 else e.2 ≤ loc.2)

/-- Civilian.find_target, FLEE branch (Agents.py lines 277-355), including
the `for i in valid_indices[0]` defect: the loop iterates over the two
components of the first eligible safe cell and uses them as list indices
into safe_cells.  Takes the current shared safe_cells list, the road-graph
key list, the agent location and the disaster location; returns the
(possibly just populated) shared safe_cells list together with the chosen
target, or the IndexError the source raises. -/
def findTargetFlee (safeCells roadCells : List Coord) (loc disasterLoc : Coord) :
    Except Err (List Coord × Coord) := do
  let sc := if safeCells.length = 0 then populateSafeCells roadCells else safeCells
  let valid := sc.filter (fleeEligible loc disasterLoc)
  let first ← pyGet valid 0
  let result ← [first.1, first.2].foldlM
    (fun (acc : Coord × Option ℕ) i => do
      let cand ← pyGet sc i
      let d : ℕ := cheb cand loc
      match acc.2 with
      | none => pure (cand, some d)
      | some m => if d < m then pure (cand, some d) else pure acc)
    (loc, none)
  pure (sc, result.1)

/-- The intended flee-target selection in the spec's words (section 4.3):
among the eligible safe cells, the one of minimum Chebyshev distance from
the agent, ties resolved by first-encountered order — the comparison
definition for refuting C4 against the source. -/
def fleeTargetSpec (safeCells : List Coord) (loc disasterLoc : Coord) : Option Coord :=
  (safeCells.filter (fleeEligible loc disasterLoc)).foldl
    (fun acc c =>
      match acc with
      | none => some c
      | some b => if cheb c loc < cheb b loc then some c else acc)
    none

/-- C4: with the shared safe-cell list [(9,9),(0,0),(0,5),(3,0),(4,0),(5,0)],
an agent at (1,5) and the disaster at (5,5), the single eligible safe cell
is (0,5) (which the spec-intended selection returns), but the source code
iterates the components 0 and 5 of that cell as indices into safe_cells,
compares safe_cells[0] = (9,9) and safe_cells[5] = (5,0), and returns (5,0)
— a cell that is not eligible (it lies on the disaster side of the agent on
the y axis) and is not of minimum Chebyshev distance. -/
theorem C4_flee_target_defect :
    findTargetFlee [(9, 9), (0, 0), (0, 5), (3, 0), (4, 0), (5, 0)] [] (1, 5) (5, 5) =
      .ok ([(9, 9), (0, 0), (0, 5), (3, 0), (4, 0), (5, 0)], (5, 0)) ∧
    fleeTargetSpec [(9, 9), (0, 0), (0, 5), (3, 0), (4, 0), (5, 0)] (1, 5) (5, 5) =
      some (0, 5) ∧
    fleeEligible (1, 5) (5, 5) (5, 0) = false ∧
    cheb (5, 0) (1, 5) = 5 ∧ cheb (0, 5) (1, 5) = 1 :=
  ⟨rfl, rfl, rfl, by decide, by decide⟩

/-! ### Pathfinding: Agent.find_path / Agent.finish_path (Agents.py 42-118)

The road graph is a Python dict from road-cell coordinate to neighbor list;
it is modelled as an association list in insertion order.  The dicts
`g_score` and `came_from` are association lists where an update prepends a
binding (lookup takes the most recent one).  The `heapq` priority queue is
a bag of `(f, node)` entries from which `heappop` removes the entry that is
minimal in the lexicographic order on `(f, y, x)` — among equal tuples the
choice is immaterial because equal tuples are identical values. -/

/-- A road graph / dict: association list from coordinate to value. -/
abbrev Graph : Type := List (Coord × List Coord)

/-- Dict lookup: the most recent binding for the key. -/
def dget (d : List (Coord × α)) (k : Coord) : Option α :=
  match d with
  | [] => none
  | (k2, v) :: rest => if k2 = k then some v else dget rest k

/-- Dict update `d[k] = v`: prepend, shadowing any earlier binding. -/
def dset (d : List (Coord × α)) (k : Coord) (v : α) : List (Coord × α) :=
  (k, v) :: d

/-- Strict lexicographic order on heap entries `(f, (y, x))`, the order in
which Python compares the tuples pushed by find_path. -/
def entryLt (a b : ℕ × Coord) : Prop :=
  a.1 < b.1 ∨ (a.1 = b.1 ∧ (a.2.1 < b.2.1 ∨ (a.2.1 = b.2.1 ∧ a.2.2 < b.2.2)))

instance : DecidablePred fun p : (ℕ × Coord) × (ℕ × Coord) => entryLt p.1 p.2 :=
  fun p => by unfold entryLt; infer_instance

instance (a b : ℕ × Coord) : Decidable (entryLt a b) :=
  inferInstanceAs (Decidable (_ ∨ _))

/-- The minimal entry of the heap (none when empty): what heappop returns.
Equal entries are identical tuples, so which occurrence is taken is
immaterial. -/
def heapMin : List (ℕ × Coord) → Option (ℕ × Coord)
  | [] => none
  | e :: rest =>
      match heapMin rest with
      | none => some e
      | some m => if entryLt m e then some m else some e

/-- heappop: remove the minimal entry, returning it and the rest. -/
def heapPop (h : List (ℕ × Coord)) : Option ((ℕ × Coord) × List (ℕ × Coord)) :=
  match heapMin h with
  | none => none
  | some e => some (e, h.erase e)

/-- State of the A* search: the `g_score` dict, the `to_be_visited` heap
and the `came_from` dict of find_path. -/
structure AState : Type where
  gs : List (Coord × ℕ)
  heap : List (ℕ × Coord)
  came : List (Coord × Coord)

/-- Outcome of a find_path run: the returned path, a raised exception, or
fuel exhaustion (an embedding artifact: the Python loop carries no fuel). -/
inductive PathOut : Type
  | ret (path : List Coord)
  | exn (e : Err)
  | fuelOut
  deriving DecidableEq, Repr

/-- Agent.finish_path (Agents.py 97-118): append `val`, follow the
came_from chain, reverse at the end.  The fuel bounds the recursion depth
(the chain in any find_path run is finite; see the callsite). -/
def finishPath (fuel : ℕ) (acc : List Coord) (val : Coord)
    (came : List (Coord × Coord)) : Option (List Coord) :=
  match fuel with
  | 0 => none
  | fuel + 1 =>
      let acc2 := acc ++ [val]
      match dget came val with
      | some p => finishPath fuel acc2 p came
      | none => some acc2.reverse

/-- One neighbor relaxation from the inner for-loop of find_path (Agents.py
84-92): reads `g_score[current]`, computes the Chebyshev heuristic to the
target and the tentative g; if the neighbor is unseen or improved, updates
g_score, pushes `(tentative_g + heuristic, neighbor)` and records the
predecessor. -/
def relaxOne (target cur : Coord) (s : AState) (nb : Coord) : Except Err AState :=
  match dget s.gs cur with
  | none => .error .keyError
  | some gc =>
      let tg := gc + 1
      let keep : Bool :=
        match dget s.gs nb with
        | none => true
        | some old => tg < old
      if keep then
        .ok { gs := dset s.gs nb tg,
              heap := (tg + cheb nb target, nb) :: s.heap,
              came := dset s.came nb cur }
      else .ok s

/-- The full neighbor loop of one find_path iteration. -/
def relaxAll (target cur : Coord) (nbs : List Coord) (s : AState) :
    Except Err AState :=
  nbs.foldlM (fun st nb => relaxOne target cur st nb) s

/-- The while-loop of find_path (Agents.py 78-93): pop the heap minimum;
when the heap is empty return the empty path; when the popped node is the
target reconstruct through finish_path (its fuel, one more than the length
of the came_from association list, bounds any chain); otherwise look the
node up in the road graph and relax its neighbors. -/
def astarLoop (graph : Graph) (target : Coord) (fuel : ℕ) (s : AState) : PathOut :=
  match fuel with
  | 0 => .fuelOut
  | fuel + 1 =>
      match heapPop s.heap with
      | none => .ret []
      | some ((_, cur), rest) =>
          if cur = target then
            match finishPath (s.came.length + 1) [] target s.came with
            | some p => .ret p
            | none => .fuelOut
          else
            match dget graph cur with
            | none => .exn .keyError
            | some nbs =>
                match relaxAll target cur nbs { s with heap := rest } with
                | .error e => .exn e
                | .ok s2 => astarLoop graph target fuel s2

/-- Agent.find_path (Agents.py 42-93): A* from `start` to `target` over the
road graph, with `g_score = {start: 0}`, the heap seeded with `(0, start)`
and an empty came_from. -/
def findPath (graph : Graph) (start target : Coord) (fuel : ℕ) : PathOut :=
  astarLoop graph target fuel { gs := [(start, 0)], heap := [(0, start)], came := [] }

/-! ### Walks and graph hypotheses -/

/-- A walk of exactly `k` edges from `a` to `b` through the graph's
neighbor lists. -/
inductive Walk (graph : Graph) : Coord → Coord → ℕ → Prop
  | nil (a : Coord) : Walk graph a a 0
  | cons {a c : Coord} {k : ℕ} (b : Coord) (nbs : List Coord)
      (ha : dget graph a = some nbs) (hb : b ∈ nbs) (hw : Walk graph b c k) :
      Walk graph a c (k + 1)

/-- The graph is closed: every listed neighbor is itself a key.  This holds
for every road graph World.init_road_graph builds (neighbors are road
cells). -/
def Closed (graph : Graph) : Prop :=
  ∀ e ∈ graph, ∀ b ∈ e.2, (dget graph b).isSome

/-- Every edge joins Chebyshev-adjacent cells, as in the 8-directional road
graphs World.init_road_graph builds; this is what makes the Chebyshev
heuristic of find_path consistent. -/
def ChebAdj (graph : Graph) : Prop :=
  ∀ e ∈ graph, ∀ b ∈ e.2, cheb e.1 b ≤ 1

instance : DecidablePred (Closed ·) := fun g => by unfold Closed; infer_instance

instance : DecidablePred (ChebAdj ·) := fun g => by unfold ChebAdj; infer_instance

/-! ### Basic lemmas: dictionaries, the heap order, walks, Chebyshev -/

theorem dget_dset_same (d : List (Coord × α)) (k : Coord) (v : α) :
    dget (dset d k v) k = some v := by
  simp [dget, dset]

theorem dget_dset_ne (d : List (Coord × α)) (k m : Coord) (v : α) (h : k ≠ m) :
    dget (dset d k v) m = dget d m := by
  simp [dget, dset, h]

theorem dget_mem {d : List (Coord × α)} {k : Coord} {v : α}
    (h : dget d k = some v) : (k, v) ∈ d := by
  induction d with
  | nil => simp [dget] at h
  | cons e rest ih =>
      obtain ⟨k2, v2⟩ := e
      by_cases hk : k2 = k
      · subst hk
        simp [dget] at h
        simp [h]
      · simp [dget, hk] at h
        simp [ih h]

theorem dget_isSome_mem_keys {d : List (Coord × α)} {k : Coord}
    (h : (dget d k).isSome) : k ∈ d.map Prod.fst := by
  obtain ⟨v, hv⟩ := Option.isSome_iff_exists.mp h
  exact List.mem_map.mpr ⟨(k, v), dget_mem hv, rfl⟩

theorem entryLt_irrefl (a : ℕ × Coord) : ¬ entryLt a a := by
  unfold entryLt; omega

theorem entryLt_asymm {a b : ℕ × Coord} (h : entryLt a b) : ¬ entryLt b a := by
  unfold entryLt at h ⊢; omega

theorem entryLt_connex {a b : ℕ × Coord} (h1 : ¬ entryLt a b) (h2 : ¬ entryLt b a) :
    a = b := by
  obtain ⟨fa, ya, xa⟩ := a
  obtain ⟨fb, yb, xb⟩ := b
  have h3 : fa = fb ∧ ya = yb ∧ xa = xb := by
    unfold entryLt at h1 h2
    simp only at h1 h2
    omega
  simp only [Prod.mk.injEq]
  exact ⟨h3.1, h3.2.1, h3.2.2⟩

theorem not_entryLt_of_not_of_not {a b c : ℕ × Coord}
    (h1 : ¬ entryLt a b) (h2 : ¬ entryLt b c) : ¬ entryLt a c := by
  unfold entryLt at h1 h2 ⊢; omega

theorem heapMin_none {h : List (ℕ × Coord)} : heapMin h = none ↔ h = [] := by
  cases h with
  | nil => simp [heapMin]
  | cons e rest =>
      simp only [heapMin]
      cases heapMin rest with
      | none => simp
      | some m => by_cases hm : entryLt m e <;> simp [hm]

theorem heapMin_mem : ∀ (h : List (ℕ × Coord)) (e : ℕ × Coord),
    heapMin h = some e → e ∈ h
  | [], e, hm => by simp [heapMin] at hm
  | a :: rest, e, hm => by
      simp only [heapMin] at hm
      cases hrest : heapMin rest with
      | none => rw [hrest] at hm; simp at hm; simp [hm]
      | some m =>
          rw [hrest] at hm
          by_cases hlt : entryLt m a
          · simp [hlt] at hm
            subst hm
            exact List.mem_cons_of_mem _ (heapMin_mem rest _ hrest)
          · simp [hlt] at hm; simp [hm]

theorem heapMin_min : ∀ (h : List (ℕ × Coord)) (e : ℕ × Coord),
    heapMin h = some e → ∀ x ∈ h, ¬ entryLt x e
  | [], e, hm => by simp [heapMin] at hm
  | a :: rest, e, hm => by
      simp only [heapMin] at hm
      intro x hx
      cases hrest : heapMin rest with
      | none =>
          rw [hrest] at hm
          simp at hm
          subst hm
          rcases List.mem_cons.mp hx with h1 | h1
          · subst h1; exact entryLt_irrefl _
          · rw [heapMin_none.mp hrest] at h1; simp at h1
      | some m =>
          rw [hrest] at hm
          by_cases hlt : entryLt m a
          · simp [hlt] at hm
            subst hm
            rcases List.mem_cons.mp hx with h1 | h1
            · subst h1; exact entryLt_asymm hlt
            · exact heapMin_min rest m hrest x h1
          · simp [hlt] at hm
            subst hm
            rcases List.mem_cons.mp hx with h1 | h1
            · subst h1; exact entryLt_irrefl _
            · exact not_entryLt_of_not_of_not (heapMin_min rest m hrest x h1) hlt

/-- Popped entries have an f no greater than any other entry's f. -/
theorem heapMin_f_le {h : List (ℕ × Coord)} {e : ℕ × Coord}
    (hm : heapMin h = some e) : ∀ x ∈ h, e.1 ≤ x.1 := by
  intro x hx
  have h2 := heapMin_min _ _ hm x hx
  unfold entryLt at h2
  rcases not_or.mp h2 with ⟨h3, h4⟩
  omega

theorem cheb_self (a : Coord) : cheb a a = 0 := by
  simp [cheb]

theorem cheb_triangle (a b c : Coord) : cheb a c ≤ cheb a b + cheb b c := by
  unfold cheb
  have h1 : (a.1 - c.1).natAbs ≤ (a.1 - b.1).natAbs + (b.1 - c.1).natAbs := by
    have : a.1 - c.1 = (a.1 - b.1) + (b.1 - c.1) := by ring
    rw [this]
    exact Int.natAbs_add_le _ _
  have h2 : (a.2 - c.2).natAbs ≤ (a.2 - b.2).natAbs + (b.2 - c.2).natAbs := by
    have : a.2 - c.2 = (a.2 - b.2) + (b.2 - c.2) := by ring
    rw [this]
    exact Int.natAbs_add_le _ _
  omega

theorem cheb_comm (a b : Coord) : cheb a b = cheb b a := by
  unfold cheb
  rw [show a.1 - b.1 = -(b.1 - a.1) by ring, show a.2 - b.2 = -(b.2 - a.2) by ring,
    Int.natAbs_neg, Int.natAbs_neg]

theorem Walk.snoc {graph : Graph} {a b c : Coord} {k : ℕ} {nbs : List Coord}
    (hw : Walk graph a b k) (hb : dget graph b = some nbs) (hc : c ∈ nbs) :
    Walk graph a c (k + 1) := by
  induction hw with
  | nil a => exact Walk.cons c nbs hb hc (Walk.nil c)
  | @cons a2 c2 k2 b2 nbs2 ha2 hb2 hw2 ih => exact Walk.cons b2 nbs2 ha2 hb2 (ih hb)

theorem Walk.trans {graph : Graph} {a b c : Coord} {k1 k2 : ℕ}
    (h1 : Walk graph a b k1) (h2 : Walk graph b c k2) :
    Walk graph a c (k1 + k2) := by
  induction h1 with
  | nil a => simpa using h2
  | @cons a2 c2 k b2 nbs ha hb hw ih =>
      have h3 := ih h2
      have heq : k + 1 + k2 = k + k2 + 1 := by omega
      rw [heq]
      exact Walk.cons b2 nbs ha hb h3

/-- Over a closed graph, every node reached by a walk from a graph key is a
graph key. -/
theorem walk_isSome {graph : Graph} (hcl : Closed graph) {a b : Coord} {k : ℕ}
    (ha : (dget graph a).isSome) (hw : Walk graph a b k) :
    (dget graph b).isSome := by
  induction hw with
  | nil a => exact ha
  | cons b2 nbs ha2 hb2 hw2 ih =>
      exact ih (hcl _ (dget_mem ha2) _ hb2)

/-- Over a Chebyshev-adjacent graph the Chebyshev distance is a lower bound
on walk length — the consistency/admissibility of find_path's heuristic. -/
theorem cheb_le_walk {graph : Graph} (hch : ChebAdj graph) {a b : Coord} {k : ℕ}
    (hw : Walk graph a b k) : cheb a b ≤ k := by
  induction hw with
  | nil a => simp [cheb_self]
  | @cons a2 c2 k2 b2 nbs ha hb hw2 ih =>
      have h1 : cheb a2 b2 ≤ 1 := hch _ (dget_mem ha) _ hb
      have h2 : cheb a2 c2 ≤ cheb a2 b2 + cheb b2 c2 := cheb_triangle _ _ _
      omega

/-! ### A* invariants

The proof of optimality follows the classical argument for the lazy
decrease-key-by-reinsertion variant of A* with a consistent heuristic: all
g_score values are witnessed by actual walks; whenever a node holds its
optimal g, either a heap entry for it with `f ≤ g + h` is still pending or
all its neighbors already hold g values at most one larger; the came_from
chains are strictly g-decreasing edge chains ending at the start. -/

/-- `k` is the minimum walk length from `a` to `b`. -/
def MinWalk (graph : Graph) (a b : Coord) (k : ℕ) : Prop :=
  Walk graph a b k ∧ ∀ j, Walk graph a b j → k ≤ j

/-- The came_from chain from a node down to the first node without a
predecessor, in the order finish_path traverses it. -/
inductive Chain (came : List (Coord × Coord)) : Coord → List Coord → Prop
  | last (n : Coord) (h : dget came n = none) : Chain came n [n]
  | step (n p : Coord) (l : List Coord) (h : dget came n = some p)
      (hc : Chain came p l) : Chain came n (n :: l)

/-- The expansion invariant at one node: whenever the node holds its
optimal g, either all its neighbors already hold a g at most one larger
(the node has been fully relaxed at its optimal g), or a heap entry for it
with `f ≤ g + heuristic` is still pending. -/
def InvCAt (graph : Graph) (start target : Coord) (s : AState) (u : Coord) : Prop :=
  ∀ du, dget s.gs u = some du → MinWalk graph start u du →
    (∀ nbs, dget graph u = some nbs → ∀ v ∈ nbs, ∃ gv, dget s.gs v = some gv ∧ gv ≤ du + 1) ∨
    (∃ f, (f, u) ∈ s.heap ∧ f ≤ du + cheb u target)

/-- Number of distinct keys holding a g_score binding. -/
def gCount (s : AState) : ℕ := ((s.gs.map Prod.fst).dedup).length

/-- The stable part of the A* loop invariant. -/
structure AInvCore (graph : Graph) (start target : Coord) (s : AState) : Prop where
  gStart : dget s.gs start = some 0
  gSound : ∀ n k, dget s.gs n = some k → Walk graph start n k
  gDom : ∀ n, (dget s.gs n).isSome → n = start ∨ (dget s.came n).isSome
  gBound : ∀ n k, dget s.gs n = some k → k + 1 ≤ gCount s
  gGraph : ∀ n, (dget s.gs n).isSome → (dget graph n).isSome
  cameStart : dget s.came start = none
  cameEdge : ∀ n p, dget s.came n = some p → ∃ nbs, dget graph p = some nbs ∧ n ∈ nbs
  cameG : ∀ n p, dget s.came n = some p →
    ∃ gp gn, dget s.gs p = some gp ∧ dget s.gs n = some gn ∧ gp < gn
  heapG : ∀ f n, (f, n) ∈ s.heap →
    ∃ gn, dget s.gs n = some gn ∧ (gn + cheb n target ≤ f ∨ (n = start ∧ f = 0))
  tgtEntry : (dget s.gs target).isSome → ∃ f, (f, target) ∈ s.heap

/-- The full A* loop invariant. -/
def AInv (graph : Graph) (start target : Coord) (s : AState) : Prop :=
  AInvCore graph start target s ∧ ∀ u, InvCAt graph start target s u

theorem dget_singleton {k n : Coord} {v : α} {r} (h : dget [(k, v)] n = some r) :
    n = k ∧ r = v := by
  by_cases hk : k = n
  · subst hk
    simp [dget] at h
    exact ⟨rfl, h.symm⟩
  · simp [dget, hk] at h

theorem AInv_init (graph : Graph) (start target : Coord)
    (hst : (dget graph start).isSome) :
    AInv graph start target { gs := [(start, 0)], heap := [(0, start)], came := [] } := by
  constructor
  · constructor
    · simp [dget]
    · intro n k h
      obtain ⟨hn, hk⟩ := dget_singleton h
      rw [hn, hk]
      exact Walk.nil start
    · intro n h
      obtain ⟨v, hv⟩ := Option.isSome_iff_exists.mp h
      exact Or.inl (dget_singleton hv).1
    · intro n k h
      obtain ⟨hn, hk⟩ := dget_singleton h
      subst hk
      simp [gCount]
    · intro n h
      obtain ⟨v, hv⟩ := Option.isSome_iff_exists.mp h
      rw [(dget_singleton hv).1]
      exact hst
    · simp [dget]
    · intro n p h
      simp [dget] at h
    · intro n p h
      simp [dget] at h
    · intro f n h
      simp at h
      obtain ⟨hf, hn⟩ := h
      subst hf; subst hn
      refine ⟨0, by simp [dget], Or.inr ⟨rfl, rfl⟩⟩
    · intro h
      obtain ⟨v, hv⟩ := Option.isSome_iff_exists.mp h
      rw [← (dget_singleton hv).1]
      exact ⟨0, by simp⟩
  · intro u du hdu hmin
    right
    obtain ⟨hu, hv⟩ := dget_singleton hdu
    subst hu; subst hv
    exact ⟨0, by simp, by omega⟩

/-! ### came_from chains and finish_path -/

theorem chain_exists {graph : Graph} {start target : Coord} {s : AState}
    (inv : AInvCore graph start target s) :
    ∀ gn n, dget s.gs n = some gn →
    ∃ l, Chain s.came n l ∧ l.head? = some n ∧ l.getLast? = some start ∧
      Walk graph start n (l.length - 1) ∧ l.length - 1 ≤ gn ∧ l ≠ [] ∧
      l.Nodup ∧ (∀ m ∈ l.tail, ∃ gm, dget s.gs m = some gm ∧ gm < gn) ∧
      (∀ m ∈ l.dropLast, (dget s.came m).isSome) := by
  intro gn
  induction gn using Nat.strong_induction_on with
  | _ gn ih =>
    intro n hn
    cases hcame : dget s.came n with
    | none =>
        have hns : n = start := by
          rcases inv.gDom n (by simp [hn]) with h | h
          · exact h
          · rw [hcame] at h; simp at h
        refine ⟨[n], Chain.last n hcame, rfl, by simp [hns], ?_, by simp, by simp,
          by simp, by simp⟩
        simpa [hns] using Walk.nil start
    | some p =>
        obtain ⟨nbs, hpg, hmem⟩ := inv.cameEdge n p hcame
        obtain ⟨gp, gn2, hgp, hgn2, hlt⟩ := inv.cameG n p hcame
        have hgneq : gn2 = gn := by
          rw [hn] at hgn2
          exact (Option.some.inj hgn2).symm
        rw [hgneq] at hlt
        obtain ⟨l, hch, hhead, hlast, hwalk, hlen, hne, hnd, htail, hdrop⟩ :=
          ih gp hlt p hgp
        obtain ⟨l2, rfl⟩ : ∃ l2, l = p :: l2 := by
          cases l with
          | nil => simp at hne
          | cons a l2 =>
              simp at hhead
              exact ⟨l2, by rw [hhead]⟩
        have hmem_lt : ∀ m ∈ p :: l2, ∃ gm, dget s.gs m = some gm ∧ gm < gn := by
          intro m hm
          rcases List.mem_cons.mp hm with h1 | h1
          · rw [h1]; exact ⟨gp, hgp, hlt⟩
          · obtain ⟨gm, hgm, hlt2⟩ := htail m (by simpa using h1)
            exact ⟨gm, hgm, lt_trans hlt2 hlt⟩
        refine ⟨n :: p :: l2, Chain.step n p _ hcame hch, rfl, ?_, ?_, ?_,
          by simp, ?_, ?_, ?_⟩
        · rw [List.getLast?_cons_cons]
          exact hlast
        · have hlen2 : (n :: p :: l2).length - 1 = ((p :: l2).length - 1) + 1 := by
            simp
          rw [hlen2]
          exact Walk.snoc hwalk hpg hmem
        · simp only [List.length_cons]
          simp only [List.length_cons] at hlen
          omega
        · rw [List.nodup_cons]
          refine ⟨?_, hnd⟩
          intro hcon
          obtain ⟨gm, hgm, hlt2⟩ := hmem_lt n hcon
          rw [hn] at hgm
          have := Option.some.inj hgm
          omega
        · simpa using hmem_lt
        · intro m hm
          rw [List.dropLast_cons_of_ne_nil (by simp)] at hm
          rcases List.mem_cons.mp hm with h1 | h1
          · rw [h1, hcame]; simp
          · exact hdrop m h1

theorem finishPath_chain {came : List (Coord × Coord)} {n : Coord} {l : List Coord}
    (hc : Chain came n l) :
    ∀ fuel, l.length ≤ fuel → ∀ acc,
      finishPath fuel acc n came = some ((acc ++ l).reverse) := by
  induction hc with
  | last n h =>
      intro fuel hf acc
      cases fuel with
      | zero => simp at hf
      | succ f => simp [finishPath, h]
  | step n p l h hc ih =>
      intro fuel hf acc
      cases fuel with
      | zero => simp at hf
      | succ f =>
          simp only [finishPath, h]
          rw [ih f (by simp at hf; omega) (acc ++ [n])]
          simp

theorem chain_length_le {came : List (Coord × Coord)} {n : Coord} {l : List Coord}
    (hc : Chain came n l) (hnd : l.Nodup)
    (hdrop : ∀ m ∈ l.dropLast, (dget came m).isSome) :
    l.length ≤ came.length + 1 := by
  have hsub : l.dropLast ⊆ came.map Prod.fst := by
    intro m hm
    exact dget_isSome_mem_keys (hdrop m hm)
  have hnd2 : l.dropLast.Nodup := (List.dropLast_sublist l).nodup hnd
  have hle : l.dropLast.length ≤ (came.map Prod.fst).length :=
    (List.subperm_of_subset hnd2 hsub).length_le
  rw [List.length_map] at hle
  have : l.dropLast.length = l.length - 1 := List.length_dropLast l
  omega

/-! ### The frontier argument -/

/-- Along any walk that realizes a minimal decomposition, either the
endpoint already holds the optimal g, or some node on a minimal walk to it
has a pending heap entry with f bounded by its optimal g plus heuristic. -/
theorem invA {graph : Graph} {start target : Coord} {s : AState}
    (inv : AInv graph start target s) {z : Coord} {dz : ℕ}
    (hminz : MinWalk graph start z dz) :
    ∀ {u : Coord} {k2 : ℕ}, Walk graph u z k2 → ∀ gu, dget s.gs u = some gu →
    gu + k2 = dz →
    dget s.gs z = some dz ∨
    (∃ f u2 gu2 k3, (f, u2) ∈ s.heap ∧ dget s.gs u2 = some gu2 ∧
      f ≤ gu2 + cheb u2 target ∧ Walk graph u2 z k3 ∧ gu2 + k3 = dz) := by
  intro u k2 hw
  induction hw with
  | nil a =>
      intro gu hgu heq
      left
      simpa [show gu = dz by omega] using hgu
  | @cons a c k b nbs hnbs hb hw2 ih =>
      intro gu hgu heq
      have hwa : Walk graph start a gu := inv.1.gSound _ _ hgu
      have hmina : MinWalk graph start a gu := by
        refine ⟨hwa, ?_⟩
        intro j hj
        have := hminz.2 (j + (k + 1)) (hj.trans (Walk.cons b nbs hnbs hb hw2))
        omega
      rcases inv.2 a gu hgu hmina with hexp | ⟨f, hf, hfle⟩
      · obtain ⟨gb, hgb, hgble⟩ := hexp nbs hnbs b hb
        have hgbge : gu + 1 ≤ gb := by
          have hwb : Walk graph start b gb := inv.1.gSound _ _ hgb
          have := hminz.2 (gb + k) (hwb.trans hw2)
          omega
        exact ih hminz gb hgb (by omega)
      · right
        exact ⟨f, a, gu, k + 1, hf, hgu, hfle, Walk.cons b nbs hnbs hb hw2, heq⟩

/-- At the moment an entry for the target is the heap minimum, the
target's g_score is at most the minimal walk length — A* never settles the
target with a suboptimal g when the Chebyshev heuristic is consistent. -/
theorem target_pop_opt {graph : Graph} {start target : Coord} {s : AState}
    (hch : ChebAdj graph) (inv : AInv graph start target s)
    (hne : start ≠ target) {dz : ℕ} (hminz : MinWalk graph start target dz)
    {fhat : ℕ} (hpop : heapMin s.heap = some (fhat, target)) :
    ∃ gt, dget s.gs target = some gt ∧ gt ≤ dz := by
  obtain ⟨gt, hgt, hcases⟩ := inv.1.heapG fhat target (heapMin_mem _ _ hpop)
  rcases hcases with hle | ⟨hts, _⟩
  · rw [cheb_self] at hle
    rcases invA inv hminz hminz.1 0 inv.1.gStart (by omega) with h |
      ⟨f, u2, gu2, k3, hf, hgu2, hfle, hwalk, hsum⟩
    · refine ⟨gt, hgt, ?_⟩
      rw [h] at hgt
      have := Option.some.inj hgt
      omega
    · have hmin2 := heapMin_f_le hpop (f, u2) hf
      have hchb : cheb u2 target ≤ k3 := cheb_le_walk hch hwalk
      simp only at hmin2
      exact ⟨gt, hgt, by omega⟩
  · exact absurd hts.symm hne

/-- While the target is reachable and the invariant holds, the heap cannot
be empty: the search cannot give up on a reachable target. -/
theorem heap_nonempty_of_reachable {graph : Graph} {start target : Coord}
    {s : AState} (inv : AInv graph start target s) {dz : ℕ}
    (hminz : MinWalk graph start target dz) : s.heap ≠ [] := by
  intro hemp
  rcases invA inv hminz hminz.1 0 inv.1.gStart (by omega) with h |
    ⟨f, u2, gu2, k3, hf, _⟩
  · obtain ⟨f, hf⟩ := inv.1.tgtEntry (by simp [h])
    rw [hemp] at hf
    simp at hf
  · rw [hemp] at hf
    simp at hf

/-! ### Preservation of the invariant through neighbor relaxation -/

theorem dget_dset_cases (d : List (Coord × α)) (k m : Coord) (v : α) :
    dget (dset d k v) m = if k = m then some v else dget d m := by
  simp [dget, dset]

theorem dget_eq_none_iff {d : List (Coord × α)} {k : Coord} :
    dget d k = none ↔ k ∉ d.map Prod.fst := by
  induction d with
  | nil => simp [dget]
  | cons e rest ih =>
      obtain ⟨k2, v2⟩ := e
      by_cases hk : k2 = k
      · subst hk
        simp [dget]
      · simp [dget, hk, ih, Ne.symm hk]

/-- Effect of one relaxation: either nothing changes (and the neighbor
already holds a g at most `gc + 1`), or the neighbor's g becomes `gc + 1`,
one heap entry is pushed, and the predecessor is recorded. -/
theorem relaxOne_cases {target cur nb : Coord} {s s2 : AState} {gc : ℕ}
    (hgc : dget s.gs cur = some gc)
    (h : relaxOne target cur s nb = .ok s2) :
    (s2 = s ∧ ∃ old, dget s.gs nb = some old ∧ old ≤ gc + 1) ∨
    (s2 = { gs := dset s.gs nb (gc + 1),
            heap := (gc + 1 + cheb nb target, nb) :: s.heap,
            came := dset s.came nb cur } ∧
      (dget s.gs nb = none ∨ ∃ old, dget s.gs nb = some old ∧ gc + 1 < old)) := by
  unfold relaxOne at h
  rw [hgc] at h
  simp only at h
  cases hnb : dget s.gs nb with
  | none =>
      rw [hnb] at h
      simp at h
      exact Or.inr ⟨h.symm, Or.inl rfl⟩
  | some old =>
      rw [hnb] at h
      by_cases hlt : gc + 1 < old
      · simp [hlt] at h
        exact Or.inr ⟨h.symm, Or.inr ⟨old, rfl, hlt⟩⟩
      · simp [hlt] at h
        exact Or.inl ⟨h.symm, old, rfl, by omega⟩

/-- In the updating case of a relaxation the neighbor can be neither the
start (its g is 0 and can never improve) nor the expanded node itself. -/
theorem relaxOne_nb_ne {start cur nb : Coord} {s : AState} {gc : ℕ}
    (hgc : dget s.gs cur = some gc) (hgstart : dget s.gs start = some 0)
    (hup : dget s.gs nb = none ∨ ∃ old, dget s.gs nb = some old ∧ gc + 1 < old) :
    nb ≠ start ∧ nb ≠ cur := by
  constructor
  · intro hcon
    subst hcon
    rcases hup with h | ⟨old, hold, hlt⟩
    · rw [hgstart] at h; simp at h
    · rw [hgstart] at hold
      have := Option.some.inj hold
      omega
  · intro hcon
    subst hcon
    rcases hup with h | ⟨old, hold, hlt⟩
    · rw [hgc] at h; simp at h
    · rw [hgc] at hold
      have := Option.some.inj hold
      omega

/-- One relaxation preserves the core invariant and the expansion
invariant at every node other than the expanded one, keeps the expanded
node's g, leaves the neighbor with a g at most `gc + 1`, only decreases
g values and only adds heap entries. -/
theorem relaxOne_inv {graph : Graph} {start target cur nb : Coord} {s s2 : AState}
    {gc : ℕ} {nbs : List Coord}
    (hgc : dget s.gs cur = some gc)
    (hnbs : dget graph cur = some nbs) (hnb : nb ∈ nbs)
    (hcl : Closed graph)
    (hcore : AInvCore graph start target s)
    (hic : ∀ u, u ≠ cur → InvCAt graph start target s u)
    (h : relaxOne target cur s nb = .ok s2) :
    AInvCore graph start target s2 ∧
    (∀ u, u ≠ cur → InvCAt graph start target s2 u) ∧
    dget s2.gs cur = some gc ∧
    (∃ gn, dget s2.gs nb = some gn ∧ gn ≤ gc + 1) ∧
    (∀ m k1, dget s.gs m = some k1 → ∃ k2, dget s2.gs m = some k2 ∧ k2 ≤ k1) ∧
    (∀ e ∈ s.heap, e ∈ s2.heap) := by
  rcases relaxOne_cases hgc h with ⟨rfl, old, hold, hle⟩ | ⟨rfl, hup⟩
  · exact ⟨hcore, hic, hgc, ⟨old, hold, hle⟩,
      fun m k1 hm => ⟨k1, hm, le_refl _⟩, fun e he => he⟩
  · obtain ⟨hnbst, hnbcur⟩ := relaxOne_nb_ne hgc hcore.gStart hup
    set tg := gc + 1 with htg
    have hgs2 : ∀ m, dget (dset s.gs nb tg) m = if nb = m then some tg else dget s.gs m :=
      fun m => dget_dset_cases _ _ _ _
    have hcame2 : ∀ m, dget (dset s.came nb cur) m =
        if nb = m then some cur else dget s.came m :=
      fun m => dget_dset_cases _ _ _ _
    have hdec : ∀ m k1, dget s.gs m = some k1 →
        ∃ k2, dget (dset s.gs nb tg) m = some k2 ∧ k2 ≤ k1 := by
      intro m k1 hm
      rw [hgs2 m]
      by_cases hmn : nb = m
      · subst hmn
        rcases hup with hnone | ⟨old, hold, hlt⟩
        · rw [hm] at hnone; simp at hnone
        · rw [hm] at hold
          have := Option.some.inj hold
          simp
          omega
      · simp only [if_neg hmn]
        exact ⟨k1, hm, le_refl _⟩
    have hnbgraph : (dget graph nb).isSome :=
      hcl _ (dget_mem hnbs) _ hnb
    have hgcount : (((dset s.gs nb tg).map Prod.fst).dedup.length = gCount s ∧
          nb ∈ s.gs.map Prod.fst) ∨
        (((dset s.gs nb tg).map Prod.fst).dedup.length = gCount s + 1 ∧
          dget s.gs nb = none) := by
      unfold gCount
      simp only [dset, List.map_cons]
      by_cases hmem : nb ∈ s.gs.map Prod.fst
      · exact Or.inl ⟨by rw [List.dedup_cons_of_mem hmem], hmem⟩
      · exact Or.inr ⟨by rw [List.dedup_cons_of_not_mem hmem]; simp,
          dget_eq_none_iff.mpr hmem⟩
    refine ⟨?_, ?_, ?_, ?_, hdec, fun e he => List.mem_cons_of_mem _ he⟩
    · constructor
      · rw [hgs2 start, if_neg hnbst]
        exact hcore.gStart
      · intro n k hn
        rw [hgs2 n] at hn
        by_cases hmn : nb = n
        · rw [if_pos hmn] at hn
          have hk : k = tg := (Option.some.inj hn).symm
          subst hk
          rw [← hmn]
          exact Walk.snoc (hcore.gSound _ _ hgc) hnbs hnb
        · rw [if_neg hmn] at hn
          exact hcore.gSound _ _ hn
      · intro n hn
        rw [hgs2 n] at hn
        by_cases hmn : nb = n
        · right
          rw [hcame2 n, if_pos hmn]
          simp
        · rw [if_neg hmn] at hn
          rcases hcore.gDom n hn with hst | hcm
          · exact Or.inl hst
          · right
            rw [hcame2 n, if_neg hmn]
            exact hcm
      · intro n k hn
        rw [hgs2 n] at hn
        show k + 1 ≤ ((dset s.gs nb tg).map Prod.fst).dedup.length
        rcases hgcount with ⟨hsame, hmem⟩ | ⟨hplus, hnone⟩
        · rw [hsame]
          by_cases hmn : nb = n
          · rw [if_pos hmn] at hn
            have hk : k = tg := (Option.some.inj hn).symm
            rcases hup with hnone2 | ⟨old, hold, hlt⟩
            · exact absurd hmem (dget_eq_none_iff.mp hnone2)
            · have hb := hcore.gBound _ _ hold
              omega
          · rw [if_neg hmn] at hn
            exact hcore.gBound _ _ hn
        · rw [hplus]
          by_cases hmn : nb = n
          · rw [if_pos hmn] at hn
            have hk : k = tg := (Option.some.inj hn).symm
            have hb := hcore.gBound _ _ hgc
            omega
          · rw [if_neg hmn] at hn
            have hb := hcore.gBound _ _ hn
            omega
      · intro n hn
        rw [hgs2 n] at hn
        by_cases hmn : nb = n
        · rw [← hmn]
          exact hnbgraph
        · rw [if_neg hmn] at hn
          exact hcore.gGraph n hn
      · rw [hcame2 start, if_neg hnbst]
        exact hcore.cameStart
      · intro n p hn
        rw [hcame2 n] at hn
        by_cases hmn : nb = n
        · rw [if_pos hmn] at hn
          have hp : p = cur := (Option.some.inj hn).symm
          subst hp
          exact ⟨nbs, hnbs, by rw [← hmn]; exact hnb⟩
        · rw [if_neg hmn] at hn
          exact hcore.cameEdge n p hn
      · intro n p hn
        rw [hcame2 n] at hn
        by_cases hmn : nb = n
        · rw [if_pos hmn] at hn
          have hp : p = cur := (Option.some.inj hn).symm
          rw [hp]
          refine ⟨gc, tg, ?_, ?_, by omega⟩
          · rw [hgs2 cur, if_neg hnbcur]
            exact hgc
          · rw [hgs2 n, if_pos hmn]
        · rw [if_neg hmn] at hn
          obtain ⟨gp, gn, hgp, hgn, hlt⟩ := hcore.cameG n p hn
          obtain ⟨gp2, hgp2, hgp2le⟩ := hdec p gp hgp
          refine ⟨gp2, gn, hgp2, ?_, by omega⟩
          rw [hgs2 n, if_neg hmn]
          exact hgn
      · intro f n hfn
        rcases List.mem_cons.mp hfn with hnew | hold2
        · have hf : f = tg + cheb nb target ∧ n = nb := by
            have h1 := congrArg Prod.fst hnew
            have h2 := congrArg Prod.snd hnew
            exact ⟨h1, h2⟩
          obtain ⟨hf1, hf2⟩ := hf
          subst hf1; subst hf2
          refine ⟨tg, ?_, Or.inl (le_refl _)⟩
          rw [hgs2 n, if_pos rfl]
        · obtain ⟨gn, hgn, hdisj⟩ := hcore.heapG f n hold2
          obtain ⟨gn2, hgn2, hgn2le⟩ := hdec n gn hgn
          refine ⟨gn2, hgn2, ?_⟩
          rcases hdisj with hl | hr
          · left; omega
          · exact Or.inr hr
      · intro hts
        rw [hgs2 target] at hts
        by_cases hmn : nb = target
        · exact ⟨tg + cheb nb target, by rw [hmn]; exact List.mem_cons_self _ _⟩
        · rw [if_neg hmn] at hts
          obtain ⟨f, hf⟩ := hcore.tgtEntry hts
          exact ⟨f, List.mem_cons_of_mem _ hf⟩
    · intro u hu du hdu hmind
      rw [hgs2 u] at hdu
      by_cases hmn : nb = u
      · right
        rw [if_pos hmn] at hdu
        have hd : du = tg := (Option.some.inj hdu).symm
        subst hd
        exact ⟨tg + cheb u target, by rw [hmn]; exact List.mem_cons_self _ _,
          le_refl _⟩
      · rw [if_neg hmn] at hdu
        rcases hic u hu du hdu hmind with hexp | ⟨f, hf, hfle⟩
        · left
          intro nbs2 hnbs2 v hv
          obtain ⟨gv, hgv, hgvle⟩ := hexp nbs2 hnbs2 v hv
          obtain ⟨gv2, hgv2, hgv2le⟩ := hdec v gv hgv
          exact ⟨gv2, hgv2, by omega⟩
        · exact Or.inr ⟨f, List.mem_cons_of_mem _ hf, hfle⟩
    · rw [hgs2 cur, if_neg hnbcur]
      exact hgc
    · refine ⟨tg, ?_, le_refl _⟩
      rw [hgs2 nb, if_pos rfl]

/-! ### The termination measure

Every push strictly decreases the sum, over the distinct graph keys, of
the g values (with a default exceeding every value the invariant allows),
so the sum plus the heap size strictly decreases at each non-returning
iteration: the Python while-loop always terminates. -/

/-- Sum over the distinct graph keys of the g value in a g_score dict,
defaulting to the number of distinct keys (the invariant keeps every g
value strictly below that). -/
def phiG (graph : Graph) (gs : List (Coord × ℕ)) : ℕ :=
  (((graph.map Prod.fst).dedup).map
    (fun k => (dget gs k).getD ((graph.map Prod.fst).dedup).length)).sum

/-- The loop measure: the g sum plus the heap size. -/
def searchMeasure (graph : Graph) (s : AState) : ℕ :=
  phiG graph s.gs + s.heap.length

theorem map_sum_le_of_le {l : List Coord} {f g : Coord → ℕ}
    (hle : ∀ m ∈ l, f m ≤ g m) : (l.map f).sum ≤ (l.map g).sum := by
  induction l with
  | nil => simp
  | cons a rest ih =>
      simp only [List.map_cons, List.sum_cons]
      have h1 := hle a (List.mem_cons_self _ _)
      have h2 := ih (fun m hm => hle m (List.mem_cons_of_mem _ hm))
      omega

theorem map_sum_lt_of_mem {l : List Coord} {f g : Coord → ℕ} {k : Coord}
    (hk : k ∈ l) (hle : ∀ m ∈ l, f m ≤ g m) (hlt : f k < g k) :
    (l.map f).sum < (l.map g).sum := by
  induction l with
  | nil => simp at hk
  | cons a rest ih =>
      simp only [List.map_cons, List.sum_cons]
      rcases List.mem_cons.mp hk with h1 | h1
      · have h2 := map_sum_le_of_le (fun m hm => hle m (List.mem_cons_of_mem _ hm))
        rw [← h1]
        have h3 := hle a (List.mem_cons_self _ _)
        omega
      · have h2 := ih h1 (fun m hm => hle m (List.mem_cons_of_mem _ hm))
        have h3 := hle a (List.mem_cons_self _ _)
        omega

theorem gCount_le_keys {graph : Graph} {s : AState}
    (hg : ∀ n, (dget s.gs n).isSome → (dget graph n).isSome) :
    gCount s ≤ ((graph.map Prod.fst).dedup).length := by
  unfold gCount
  have hsub : (s.gs.map Prod.fst).dedup ⊆ (graph.map Prod.fst).dedup := by
    intro k hkk
    rw [List.mem_dedup] at hkk ⊢
    have hks : (dget s.gs k).isSome := by
      by_contra hno
      rw [Option.not_isSome_iff_eq_none] at hno
      exact (dget_eq_none_iff.mp hno) hkk
    exact dget_isSome_mem_keys (hg k hks)
  exact (List.subperm_of_subset (List.nodup_dedup _) hsub).length_le

/-- One relaxation never increases the measure: a push is paid for by a
strict decrease of the g sum. -/
theorem relaxOne_M {graph : Graph} {start target cur nb : Coord} {s s2 : AState}
    {gc : ℕ} (hgc : dget s.gs cur = some gc)
    (h : relaxOne target cur s nb = .ok s2)
    (hout : AInvCore graph start target s2) :
    phiG graph s2.gs + s2.heap.length ≤ phiG graph s.gs + s.heap.length := by
  rcases relaxOne_cases hgc h with ⟨rfl, _⟩ | ⟨rfl, hup⟩
  · exact le_refl _
  · have hgs2nb : dget (dset s.gs nb (gc + 1)) nb = some (gc + 1) :=
      dget_dset_same _ _ _
    have hnb_keys : nb ∈ (graph.map Prod.fst).dedup := by
      rw [List.mem_dedup]
      exact dget_isSome_mem_keys (hout.gGraph nb (by simp [hgs2nb]))
    have hNbound : gc + 1 < ((graph.map Prod.fst).dedup).length := by
      have h1 := hout.gBound nb _ hgs2nb
      have h2 := gCount_le_keys (fun n hn => hout.gGraph n hn)
      omega
    have hphi : phiG graph (dset s.gs nb (gc + 1)) < phiG graph s.gs := by
      unfold phiG
      apply map_sum_lt_of_mem hnb_keys
      · intro m _
        show (dget (dset s.gs nb (gc + 1)) m).getD ((graph.map Prod.fst).dedup).length ≤
          (dget s.gs m).getD ((graph.map Prod.fst).dedup).length
        rw [dget_dset_cases]
        by_cases hmn : nb = m
        · rw [if_pos hmn]
          rw [← hmn]
          rcases hup with hnone | ⟨old, hold, hlt⟩
          · rw [hnone]
            simp only [Option.getD_some, Option.getD_none]
            omega
          · rw [hold]
            simp only [Option.getD_some]
            omega
        · rw [if_neg hmn]
      · show (dget (dset s.gs nb (gc + 1)) nb).getD ((graph.map Prod.fst).dedup).length <
          (dget s.gs nb).getD ((graph.map Prod.fst).dedup).length
        rw [dget_dset_cases, if_pos rfl]
        rcases hup with hnone | ⟨old, hold, hlt⟩
        · rw [hnone]
          simpa using hNbound
        · rw [hold]
          simpa using hlt
    show phiG graph (dset s.gs nb (gc + 1)) +
      ((gc + 1 + cheb nb target, nb) :: s.heap).length ≤
      phiG graph s.gs + s.heap.length
    simp only [List.length_cons]
    omega

/-- The whole neighbor loop preserves the invariant, never raises, keeps
the expanded node's g, leaves every processed neighbor with a g at most
`gc + 1`, only decreases g values and only adds heap entries. -/
theorem relaxAll_inv {graph : Graph} {start target cur : Coord} {nbs : List Coord}
    (hnbs : dget graph cur = some nbs) (hcl : Closed graph) :
    ∀ (todo : List Coord), (∀ v ∈ todo, v ∈ nbs) →
    ∀ (s : AState) (gc : ℕ), dget s.gs cur = some gc →
    AInvCore graph start target s →
    (∀ u, u ≠ cur → InvCAt graph start target s u) →
    ∃ s2, relaxAll target cur todo s = .ok s2 ∧
      AInvCore graph start target s2 ∧
      (∀ u, u ≠ cur → InvCAt graph start target s2 u) ∧
      dget s2.gs cur = some gc ∧
      (∀ m k1, dget s.gs m = some k1 → ∃ k2, dget s2.gs m = some k2 ∧ k2 ≤ k1) ∧
      (∀ e ∈ s.heap, e ∈ s2.heap) ∧
      (∀ v ∈ todo, ∃ gv, dget s2.gs v = some gv ∧ gv ≤ gc + 1) ∧
      phiG graph s2.gs + s2.heap.length ≤ phiG graph s.gs + s.heap.length := by
  intro todo
  induction todo with
  | nil =>
      intro _ s gc hgc hcore hic
      exact ⟨s, rfl, hcore, hic, hgc, fun m k1 hm => ⟨k1, hm, le_refl _⟩,
        fun e he => he, by simp, le_refl _⟩
  | cons a rest ih =>
      intro hsub s gc hgc hcore hic
      have ha : a ∈ nbs := hsub a (List.mem_cons_self _ _)
      have hok : ∃ s1, relaxOne target cur s a = .ok s1 := by
        unfold relaxOne
        rw [hgc]
        cases hda : dget s.gs a with
        | none => exact ⟨_, rfl⟩
        | some old =>
            by_cases hlt : gc + 1 < old
            · simp only [hlt]
              exact ⟨_, rfl⟩
            · simp only [hlt]
              exact ⟨_, rfl⟩
      obtain ⟨s1, hs1⟩ := hok
      obtain ⟨hcore1, hic1, hgc1, ⟨ga, hga, hgale⟩, hdec1, hheap1⟩ :=
        relaxOne_inv hgc hnbs ha hcl hcore hic hs1
      obtain ⟨s2, hs2, hcore2, hic2, hgc2, hdec2, hheap2, hproc2, hM2⟩ :=
        ih (fun v hv => hsub v (List.mem_cons_of_mem _ hv)) s1 gc hgc1 hcore1 hic1
      have hM1 := relaxOne_M hgc hs1 hcore1
      refine ⟨s2, ?_, hcore2, hic2, hgc2, ?_, ?_, ?_, by omega⟩
      · unfold relaxAll at hs2 ⊢
        rw [List.foldlM_cons, hs1]
        simpa using hs2
      · intro m k1 hm
        obtain ⟨k2, hk2, hle2⟩ := hdec1 m k1 hm
        obtain ⟨k3, hk3, hle3⟩ := hdec2 m k2 hk2
        exact ⟨k3, hk3, le_trans hle3 hle2⟩
      · exact fun e he => hheap2 e (hheap1 e he)
      · intro v hv
        rcases List.mem_cons.mp hv with h1 | h1
        · obtain ⟨k3, hk3, hle3⟩ := hdec2 a ga hga
          rw [h1]
          exact ⟨k3, hk3, by omega⟩
        · exact hproc2 v h1

theorem heapPop_eq {h : List (ℕ × Coord)} {e : ℕ × Coord} {rest : List (ℕ × Coord)}
    (hp : heapPop h = some (e, rest)) :
    heapMin h = some e ∧ rest = h.erase e := by
  unfold heapPop at hp
  cases heq : heapMin h with
  | none => rw [heq] at hp; simp at hp
  | some m =>
      rw [heq] at hp
      simp at hp
      refine ⟨by rw [hp.1], ?_⟩
      rw [← hp.2, hp.1]

/-- One non-returning loop iteration: pop a non-target node, look it up and
relax all its neighbors; the full invariant is restored. -/
theorem astar_step_inv {graph : Graph} {start target : Coord} {s : AState}
    (hcl : Closed graph) (inv : AInv graph start target s)
    {fhat : ℕ} {cur : Coord} {rest : List (ℕ × Coord)}
    (hpop : heapPop s.heap = some ((fhat, cur), rest))
    (hct : cur ≠ target) :
    ∃ nbs s2, dget graph cur = some nbs ∧
      relaxAll target cur nbs { s with heap := rest } = .ok s2 ∧
      AInv graph start target s2 ∧
      dget s2.gs cur = (dget s.gs cur) ∧
      searchMeasure graph s2 < searchMeasure graph s := by
  obtain ⟨hmin, hrest⟩ := heapPop_eq hpop
  have hmem : (fhat, cur) ∈ s.heap := heapMin_mem _ _ hmin
  obtain ⟨gc, hgc, _⟩ := inv.1.heapG fhat cur hmem
  obtain ⟨nbs, hnbs⟩ := Option.isSome_iff_exists.mp (inv.1.gGraph cur (by simp [hgc]))
  have hrest_sub : ∀ e ∈ rest, e ∈ s.heap := by
    intro e he
    rw [hrest] at he
    exact List.erase_subset _ _ he
  have hcore1 : AInvCore graph start target { s with heap := rest } := by
    obtain ⟨g1, g2, g3, g4, g5, c1, c2, c3, hG, tE⟩ := inv.1
    refine ⟨g1, g2, g3, g4, g5, c1, c2, c3, ?_, ?_⟩
    · intro f n hfn
      exact hG f n (hrest_sub _ hfn)
    · intro hts
      obtain ⟨f, hf⟩ := tE hts
      refine ⟨f, ?_⟩
      show (f, target) ∈ rest
      rw [hrest]
      rw [List.mem_erase_of_ne (by simp [Ne.symm hct])]
      exact hf
  have hic1 : ∀ u, u ≠ cur → InvCAt graph start target { s with heap := rest } u := by
    intro u hu du hdu hmind
    rcases inv.2 u du hdu hmind with hexp | ⟨f, hf, hfle⟩
    · exact Or.inl hexp
    · right
      refine ⟨f, ?_, hfle⟩
      show (f, u) ∈ rest
      rw [hrest]
      rw [List.mem_erase_of_ne (by simp [hu])]
      exact hf
  obtain ⟨s2, hs2, hcore2, hic2, hgc2, hdec2, hheap2, hproc2, hM2⟩ :=
    relaxAll_inv hnbs hcl nbs (fun v hv => hv) { s with heap := rest } gc hgc
      hcore1 hic1
  have hMdec : searchMeasure graph s2 < searchMeasure graph s := by
    have hrlen : rest.length = s.heap.length - 1 := by
      rw [hrest]
      exact List.length_erase_of_mem hmem
    have hpos : 1 ≤ s.heap.length := List.length_pos.mpr (List.ne_nil_of_mem hmem)
    unfold searchMeasure at *
    simp only at hM2
    omega
  refine ⟨nbs, s2, hnbs, hs2, ⟨hcore2, ?_⟩, by rw [hgc2, hgc], hMdec⟩
  intro u du hdu hmind
  by_cases hu : u = cur
  · left
    intro nbs2 hnbs2 v hv
    have hnbseq : nbs2 = nbs := by
      rw [hu] at hnbs2
      rw [hnbs2] at hnbs
      exact Option.some.inj hnbs
    rw [hnbseq] at hv
    obtain ⟨gv, hgv, hgvle⟩ := hproc2 v hv
    have hdu2 : du = gc := by
      rw [hu] at hdu
      rw [hdu] at hgc2
      exact Option.some.inj hgc2
    exact ⟨gv, hgv, by omega⟩
  · exact hic2 u hu du hdu hmind

/-! ### The main loop theorems -/

theorem heapPop_none {h : List (ℕ × Coord)} (hpop : heapPop h = none) : h = [] := by
  unfold heapPop at hpop
  cases heq : heapMin h with
  | none => exact heapMin_none.mp heq
  | some m => rw [heq] at hpop; simp at hpop

/-- Run from any invariant state while the target is reachable: unless the
fuel runs out, the loop returns a path from start to target whose number of
cells is the minimal step count plus one. -/
theorem astarLoop_spec {graph : Graph} {start target : Coord}
    (hcl : Closed graph) (hch : ChebAdj graph) (hne : start ≠ target)
    {dz : ℕ} (hminz : MinWalk graph start target dz) :
    ∀ (fuel : ℕ) (s : AState), AInv graph start target s →
      astarLoop graph target fuel s = .fuelOut ∨
      ∃ p, astarLoop graph target fuel s = .ret p ∧ p.head? = some start ∧
        p.getLast? = some target ∧ p.length = dz + 1 := by
  intro fuel
  induction fuel with
  | zero => intro s _; left; rfl
  | succ fuel ih =>
      intro s inv
      cases hpop : heapPop s.heap with
      | none =>
          exfalso
          exact heap_nonempty_of_reachable inv hminz (heapPop_none hpop)
      | some pr =>
          obtain ⟨⟨fhat, cur⟩, rest⟩ := pr
          by_cases hct : cur = target
          · subst hct
            obtain ⟨hmin, _⟩ := heapPop_eq hpop
            obtain ⟨gt, hgt, hgtle⟩ := target_pop_opt hch inv hne hminz hmin
            obtain ⟨l, hchain, hhead, hlast, hwalk, hlen, hnonempty, hnd, _, hdrop⟩ :=
              chain_exists inv.1 gt cur hgt
            have hfl : l.length ≤ s.came.length + 1 := chain_length_le hchain hnd hdrop
            have hfp := finishPath_chain hchain (s.came.length + 1) hfl []
            right
            have hlpos : 1 ≤ l.length := List.length_pos.mpr hnonempty
            have hk : l.length - 1 = dz := by
              have h1 := hminz.2 _ hwalk
              omega
            refine ⟨l.reverse, ?_, ?_, ?_, ?_⟩
            · simp only [astarLoop]
              rw [hpop]
              simp only [if_pos rfl, List.nil_append] at *
              rw [hfp]
              simp
            · rw [List.head?_reverse]
              exact hlast
            · rw [List.getLast?_reverse]
              exact hhead
            · simp only [List.length_reverse]
              omega
          · obtain ⟨nbs, s2, hnbs, hs2, inv2, _⟩ := astar_step_inv hcl inv hpop hct
            have hred : astarLoop graph target (fuel + 1) s =
                astarLoop graph target fuel s2 := by
              simp only [astarLoop]
              rw [hpop]
              simp only [if_neg hct]
              rw [hnbs]
              simp only
              rw [hs2]
            rw [hred]
            exact ih s2 inv2

/-- Run from any invariant state with the target unreachable: the loop
either runs out of fuel or returns the empty path. -/
theorem astarLoop_unreach {graph : Graph} {start target : Coord}
    (hcl : Closed graph)
    (hunreach : ¬ ∃ k, Walk graph start target k) :
    ∀ (fuel : ℕ) (s : AState), AInv graph start target s →
      astarLoop graph target fuel s = .fuelOut ∨
      astarLoop graph target fuel s = .ret [] := by
  intro fuel
  induction fuel with
  | zero => intro s _; left; rfl
  | succ fuel ih =>
      intro s inv
      cases hpop : heapPop s.heap with
      | none =>
          right
          simp only [astarLoop]
          rw [hpop]
      | some pr =>
          obtain ⟨⟨fhat, cur⟩, rest⟩ := pr
          by_cases hct : cur = target
          · exfalso
            subst hct
            obtain ⟨hmin, _⟩ := heapPop_eq hpop
            obtain ⟨gt, hgt, _⟩ := inv.1.heapG fhat cur (heapMin_mem _ _ hmin)
            exact hunreach ⟨gt, inv.1.gSound _ _ hgt⟩
          · obtain ⟨nbs, s2, hnbs, hs2, inv2, _⟩ := astar_step_inv hcl inv hpop hct
            have hred : astarLoop graph target (fuel + 1) s =
                astarLoop graph target fuel s2 := by
              simp only [astarLoop]
              rw [hpop]
              simp only [if_neg hct]
              rw [hnbs]
              simp only
              rw [hs2]
            rw [hred]
            exact ih s2 inv2

/-- The loop never raises an exception from an invariant state. -/
theorem astarLoop_no_exn {graph : Graph} {start target : Coord}
    (hcl : Closed graph) :
    ∀ (fuel : ℕ) (s : AState), AInv graph start target s →
      ∀ e, astarLoop graph target fuel s ≠ .exn e := by
  intro fuel
  induction fuel with
  | zero => intro s _ e h; simp [astarLoop] at h
  | succ fuel ih =>
      intro s inv e h
      cases hpop : heapPop s.heap with
      | none =>
          simp only [astarLoop] at h
          rw [hpop] at h
          simp at h
      | some pr =>
          obtain ⟨⟨fhat, cur⟩, rest⟩ := pr
          by_cases hct : cur = target
          · subst hct
            simp only [astarLoop] at h
            rw [hpop] at h
            simp only [if_pos rfl] at h
            cases hfp : finishPath (s.came.length + 1) [] cur s.came with
            | none => rw [hfp] at h; simp at h
            | some p => rw [hfp] at h; simp at h
          · obtain ⟨nbs, s2, hnbs, hs2, inv2, _⟩ := astar_step_inv hcl inv hpop hct
            have hred : astarLoop graph target (fuel + 1) s =
                astarLoop graph target fuel s2 := by
              simp only [astarLoop]
              rw [hpop]
              simp only [if_neg hct]
              rw [hnbs]
              simp only
              rw [hs2]
            rw [hred] at h
            exact ih s2 inv2 e h

/-- Step-unfolding equation for the loop. -/
theorem astarLoop_succ (graph : Graph) (target : Coord) (fuel : ℕ) (s : AState) :
    astarLoop graph target (fuel + 1) s =
      match heapPop s.heap with
      | none => .ret []
      | some ((_, cur), rest) =>
          if cur = target then
            match finishPath (s.came.length + 1) [] target s.came with
            | some p => .ret p
            | none => .fuelOut
          else
            match dget graph cur with
            | none => .exn .keyError
            | some nbs =>
                match relaxAll target cur nbs { s with heap := rest } with
                | .error e => .exn e
                | .ok s2 => astarLoop graph target fuel s2 := rfl

/-- With fuel exceeding the measure, the loop completes. -/
theorem astarLoop_terminates {graph : Graph} {start target : Coord}
    (hcl : Closed graph) :
    ∀ (n : ℕ) (s : AState), AInv graph start target s →
      searchMeasure graph s ≤ n →
      astarLoop graph target (n + 1) s ≠ .fuelOut := by
  intro n
  induction n using Nat.strong_induction_on with
  | _ n ih =>
      intro s inv hm
      rw [astarLoop_succ]
      cases hpop : heapPop s.heap with
      | none => simp
      | some pr =>
          obtain ⟨⟨fhat, cur⟩, rest⟩ := pr
          by_cases hct : cur = target
          · subst hct
            obtain ⟨hmin, _⟩ := heapPop_eq hpop
            obtain ⟨gt, hgt, _⟩ := inv.1.heapG fhat cur (heapMin_mem _ _ hmin)
            obtain ⟨l, hchain, _, _, _, _, hne2, hnd, _, hdrop⟩ :=
              chain_exists inv.1 gt cur hgt
            have hfl := chain_length_le hchain hnd hdrop
            have hfp := finishPath_chain hchain (s.came.length + 1) hfl []
            simp only [if_pos rfl]
            rw [hfp]
            simp
          · obtain ⟨nbs, s2, hnbs, hs2, inv2, _, hMdec⟩ :=
              astar_step_inv hcl inv hpop hct
            simp only [if_neg hct]
            rw [hnbs]
            simp only
            rw [hs2]
            simp only
            have hpos : 1 ≤ searchMeasure graph s := by
              unfold searchMeasure
              have h3 := List.length_pos.mpr
                (List.ne_nil_of_mem (heapMin_mem _ _ (heapPop_eq hpop).1))
              omega
            have hn : 1 ≤ n := le_trans hpos hm
            have h2 : searchMeasure graph s2 ≤ n - 1 := by omega
            have h4 := ih (n - 1) (by omega) s2 inv2 h2
            rw [show n = (n - 1) + 1 by omega]
            exact h4

/-- Branch evaluation equations for one loop iteration. -/
theorem astarLoop_run_none {graph : Graph} {target : Coord} {fuel : ℕ} {s : AState}
    (hpop : heapPop s.heap = none) :
    astarLoop graph target (fuel + 1) s = .ret [] := by
  simp only [astarLoop]
  rw [hpop]

theorem astarLoop_run_target {graph : Graph} {target : Coord} {fuel : ℕ} {s : AState}
    {fhat : ℕ} {rest : List (ℕ × Coord)}
    (hpop : heapPop s.heap = some ((fhat, target), rest)) :
    astarLoop graph target (fuel + 1) s =
      match finishPath (s.came.length + 1) [] target s.came with
      | some p => .ret p
      | none => .fuelOut := by
  simp only [astarLoop]
  rw [hpop]
  simp

theorem astarLoop_run_keyerr {graph : Graph} {target : Coord} {fuel : ℕ} {s : AState}
    {fhat : ℕ} {cur : Coord} {rest : List (ℕ × Coord)}
    (hpop : heapPop s.heap = some ((fhat, cur), rest)) (hct : cur ≠ target)
    (hnbs : dget graph cur = none) :
    astarLoop graph target (fuel + 1) s = .exn .keyError := by
  simp only [astarLoop]
  rw [hpop]
  simp only [if_neg hct]
  rw [hnbs]

theorem astarLoop_run_relerr {graph : Graph} {target : Coord} {fuel : ℕ} {s : AState}
    {fhat : ℕ} {cur : Coord} {rest : List (ℕ × Coord)} {nbs : List Coord} {e : Err}
    (hpop : heapPop s.heap = some ((fhat, cur), rest)) (hct : cur ≠ target)
    (hnbs : dget graph cur = some nbs)
    (hrel : relaxAll target cur nbs { s with heap := rest } = .error e) :
    astarLoop graph target (fuel + 1) s = .exn e := by
  simp only [astarLoop]
  rw [hpop]
  simp only [if_neg hct]
  rw [hnbs]
  simp only
  rw [hrel]

theorem astarLoop_succ_step {graph : Graph} {target : Coord} {fuel : ℕ} {s : AState}
    {fhat : ℕ} {cur : Coord} {rest : List (ℕ × Coord)} {nbs : List Coord} {s2 : AState}
    (hpop : heapPop s.heap = some ((fhat, cur), rest)) (hct : cur ≠ target)
    (hnbs : dget graph cur = some nbs)
    (hrel : relaxAll target cur nbs { s with heap := rest } = .ok s2) :
    astarLoop graph target (fuel + 1) s = astarLoop graph target fuel s2 := by
  simp only [astarLoop]
  rw [hpop]
  simp only [if_neg hct]
  rw [hnbs]
  simp only
  rw [hrel]

/-- The loop result is stable once the fuel suffices. -/
theorem astarLoop_mono {graph : Graph} {target : Coord} :
    ∀ (fuel : ℕ) (s : AState), astarLoop graph target fuel s ≠ .fuelOut →
      astarLoop graph target (fuel + 1) s = astarLoop graph target fuel s := by
  intro fuel
  induction fuel with
  | zero => intro s h; exact absurd rfl h
  | succ fuel ih =>
      intro s h
      cases hpop : heapPop s.heap with
      | none => rw [astarLoop_run_none hpop, astarLoop_run_none hpop]
      | some pr =>
          obtain ⟨⟨fhat, cur⟩, rest⟩ := pr
          by_cases hct : cur = target
          · subst hct
            rw [astarLoop_run_target hpop, astarLoop_run_target hpop]
          · cases hnbs : dget graph cur with
            | none =>
                rw [astarLoop_run_keyerr hpop hct hnbs,
                  astarLoop_run_keyerr hpop hct hnbs]
            | some nbs =>
                cases hrel : relaxAll target cur nbs { s with heap := rest } with
                | error e =>
                    rw [astarLoop_run_relerr hpop hct hnbs hrel,
                      astarLoop_run_relerr hpop hct hnbs hrel]
                | ok s2 =>
                    rw [astarLoop_succ_step hpop hct hnbs hrel,
                      astarLoop_succ_step hpop hct hnbs hrel]
                    apply ih
                    rw [← astarLoop_succ_step hpop hct hnbs hrel]
                    exact h

theorem astarLoop_ge {graph : Graph} {target : Coord} {fuel : ℕ} {s : AState}
    (h : astarLoop graph target fuel s ≠ .fuelOut) :
    ∀ fuel2, fuel ≤ fuel2 →
      astarLoop graph target fuel2 s = astarLoop graph target fuel s := by
  intro fuel2 hle
  induction fuel2, hle using Nat.le_induction with
  | base => rfl
  | succ fuel2 hle2 ih =>
      have h2 : astarLoop graph target fuel2 s ≠ .fuelOut := by
        rw [ih]; exact h
      rw [astarLoop_mono fuel2 s h2, ih]

/-- The initial A* state built by find_path. -/
def initState (start : Coord) : AState :=
  { gs := [(start, 0)], heap := [(0, start)], came := [] }

/-- find_path on a well-formed road graph with a reachable target: with
enough fuel it returns a path that starts at the agent's own cell, ends at
the target, and realizes the minimal step count. -/
theorem findPath_opt {graph : Graph} {start target : Coord}
    (hcl : Closed graph) (hch : ChebAdj graph)
    (hst : (dget graph start).isSome) (hne : start ≠ target)
    (hconn : ∃ k, Walk graph start target k) :
    ∃ F, ∀ fuel, F ≤ fuel → ∃ p,
      findPath graph start target fuel = .ret p ∧
      p.head? = some start ∧ p.getLast? = some target ∧
      Walk graph start target (p.length - 1) ∧
      (∀ j, Walk graph start target j → p.length - 1 ≤ j) ∧
      1 ≤ p.length := by
  classical
  have hminz : MinWalk graph start target (Nat.find hconn) :=
    ⟨Nat.find_spec hconn, fun j hj => Nat.find_min' hconn hj⟩
  have inv0 := AInv_init graph start target hst
  set s0 := initState start with hs0
  set F := searchMeasure graph s0 + 1 with hF
  have hterm := astarLoop_terminates hcl (searchMeasure graph s0) s0 inv0 (le_refl _)
  rcases astarLoop_spec hcl hch hne hminz F s0 inv0 with hfo | ⟨p, hp, hh, hl, hlen⟩
  · exact absurd hfo hterm
  refine ⟨F, ?_⟩
  intro fuel hfuel
  have hne2 : astarLoop graph target F s0 ≠ .fuelOut := by
    rw [hp]; simp
  have heq2 : findPath graph start target fuel = .ret p := by
    unfold findPath
    show astarLoop graph target fuel s0 = .ret p
    rw [astarLoop_ge hne2 fuel hfuel]
    exact hp
  refine ⟨p, heq2, hh, hl, ?_, ?_, by omega⟩
  · rw [show p.length - 1 = Nat.find hconn by omega]
    exact hminz.1
  · intro j hj
    rw [show p.length - 1 = Nat.find hconn by omega]
    exact hminz.2 j hj

/-- find_path on a well-formed road graph with an unreachable target: with
enough fuel it returns the empty path — no exception, no partial path. -/
theorem findPath_unreach {graph : Graph} {start target : Coord}
    (hcl : Closed graph) (hst : (dget graph start).isSome)
    (hunreach : ¬ ∃ k, Walk graph start target k) :
    ∃ F, ∀ fuel, F ≤ fuel → findPath graph start target fuel = .ret [] := by
  have inv0 := AInv_init graph start target hst
  set s0 := initState start with hs0
  set F := searchMeasure graph s0 + 1 with hF
  have hterm := astarLoop_terminates hcl (searchMeasure graph s0) s0 inv0 (le_refl _)
  rcases astarLoop_unreach hcl hunreach F s0 inv0 with hfo | hret
  · exact absurd hfo hterm
  refine ⟨F, ?_⟩
  intro fuel hfuel
  have hne2 : astarLoop graph target F s0 ≠ .fuelOut := by
    rw [hret]; simp
  unfold findPath
  show astarLoop graph target fuel s0 = .ret []
  rw [astarLoop_ge hne2 fuel hfuel]
  exact hret

/-! ### C2: the find_path contract -/

/-- C2 (counterexample to the claim as stated): on the two-cell road graph
linking (0,0) and (0,1), find_path from (0,0) to (0,1) returns the sequence
[(0,0), (0,1)]: finish_path walks the came_from chain all the way back to
the start cell and appends it, so the returned sequence begins at the start
cell itself — not at the cell after start — and its length is 2, one more
than the true minimum step count 1. -/
theorem C2_find_path_counterexample :
    findPath [((0, 0), [(0, 1)]), ((0, 1), [(0, 0)])] (0, 0) (0, 1) 5 =
      .ret [(0, 0), (0, 1)] ∧
    [((0 : ℤ), (0 : ℤ)), (0, 1)].head? ≠ some ((0 : ℤ), (1 : ℤ)) ∧
    Walk [((0, 0), [(0, 1)]), ((0, 1), [(0, 0)])] (0, 0) (0, 1) 1 ∧
    [((0 : ℤ), (0 : ℤ)), (0, 1)].length ≠ 1 := by
  refine ⟨by decide, by decide, ?_, by decide⟩
  exact Walk.cons (0, 1) [(0, 1)] rfl (by simp) (Walk.nil (0, 1))

/-- C2 (amended): over any closed, Chebyshev-adjacent road graph (as
World.init_road_graph builds), for every pair of distinct connected road
cells, find_path returns — for any fuel covering the loop's finite
iteration count — a sequence that begins at the start cell itself (start
is included, contrary to the original claim), ends at the target, and
whose number of moves (length minus one) equals the true minimum step
count under 8-directional unit-cost movement. -/
theorem C2_find_path_optimal {graph : Graph} {start target : Coord}
    (hcl : Closed graph) (hch : ChebAdj graph)
    (hst : (dget graph start).isSome) (hne : start ≠ target)
    (hconn : ∃ k, Walk graph start target k) :
    ∃ F, ∀ fuel, F ≤ fuel → ∃ p,
      findPath graph start target fuel = .ret p ∧
      p.head? = some start ∧ p.getLast? = some target ∧
      Walk graph start target (p.length - 1) ∧
      (∀ j, Walk graph start target j → p.length - 1 ≤ j) ∧
      1 ≤ p.length :=
  findPath_opt hcl hch hst hne hconn

/-- C2 witness: the amended theorem applied to the concrete two-cell road
graph, all hypotheses discharged by evaluation. -/
theorem C2_find_path_optimal_witness :
    ∃ F, ∀ fuel, F ≤ fuel → ∃ p,
      findPath [((0, 0), [(0, 1)]), ((0, 1), [(0, 0)])] (0, 0) (0, 1) fuel =
        .ret p ∧
      p.head? = some ((0 : ℤ), (0 : ℤ)) ∧ p.getLast? = some ((0 : ℤ), (1 : ℤ)) ∧
      Walk [((0, 0), [(0, 1)]), ((0, 1), [(0, 0)])] (0, 0) (0, 1) (p.length - 1) ∧
      (∀ j, Walk [((0, 0), [(0, 1)]), ((0, 1), [(0, 0)])] (0, 0) (0, 1) j →
        p.length - 1 ≤ j) ∧
      1 ≤ p.length :=
  C2_find_path_optimal (by decide) (by decide) (by decide) (by decide)
    ⟨1, Walk.cons (0, 1) [(0, 1)] rfl (by simp) (Walk.nil (0, 1))⟩

/-! ### The grid world (World.py, Agents.py)

The grid is a rectangular list of rows of cells; an agent is a Civilian
record, and a cell's occupant is the index of the occupying agent in the
World's agent list (the Python object reference).  Randomness
(random.randrange in find_target, random.random in check_perception_flee)
is modelled by an oracle list of naturals consumed head-first: the head
modulo the range size stands for randrange's uniformly random choice, and
a zero head stands for the 5 percent trample roll succeeding.  numpy
integer indexing is modelled with Python semantics (a negative index is
shifted by the axis length); an out-of-range write is modelled as a no-op
(it never occurs in any state our theorems engage). -/

/-- World.Cell (World.py 21-28): road flag and occupant.  The `disaster`
flag is read by Civilian.check_perception_wander (Agents.py 396) and by the
renderer but is absent from the Cell constructor in src.  Modelled from the
spec: a cell is "disaster-marked" by the missing disaster-start setter,
and the flag defaults to false. -/
structure Cell : Type where
  is_road : Bool
  occupant : Option ℕ
  disaster : Bool
  deriving DecidableEq, Repr

/-- A Civilian's mutable fields (Agents.py 226-232 and Agent 30-35). -/
structure Civ : Type where
  pattern : Pattern
  health : HealthState
  timeToWorsen : Option ℕ
  location : Coord
  target : Coord
  path : List Coord
  deriving DecidableEq, Repr

/-- The World state: grid, agents, plus the class-level shared state of
Civilian (safe_cells) and Agent (disaster_loc). -/
structure WState : Type where
  grid : List (List Cell)
  agents : List Civ
  safeCells : List Coord
  disasterLoc : Option Coord

/-- Outcome of an embedded stateful method: normal result, raised Python
exception, or fuel exhaustion (an embedding artifact of find_path's loop). -/
inductive COut (α : Type) : Type
  | ok (a : α)
  | exn (e : Err)
  | fuelOut

/-- Modify the i-th element of a list (out of range: unchanged). -/
def listModify : List α → ℕ → (α → α) → List α
  | [], _, _ => []
  | a :: rest, 0, f => f a :: rest
  | a :: rest, i + 1, f => a :: listModify rest i f

/-- Python integer index normalization on an axis of length n: a negative
index is shifted by n; the result is returned only when in range. -/
def pyIdx (n : ℕ) (i : ℤ) : Option ℕ :=
  let j := if i < 0 then i + n else i
  if 0 ≤ j ∧ j < n then some j.toNat else none

/-- Cell of the grid at row y, column x (plain natural indices). -/
def cellAtN (g : List (List Cell)) (y x : ℕ) : Option Cell :=
  (g.get? y).bind (fun row => row.get? x)

/-- Cell of the grid at a coordinate, with Python index semantics. -/
def cellAt (g : List (List Cell)) (c : Coord) : Option Cell :=
  match pyIdx g.length c.1 with
  | none => none
  | some y =>
      match g.get? y with
      | none => none
      | some row =>
          match pyIdx row.length c.2 with
          | none => none
          | some x => row.get? x

/-- Write the occupant of the cell at a coordinate (World.update's commit,
World.py 188-189). -/
def setOcc (g : List (List Cell)) (c : Coord) (o : Option ℕ) : List (List Cell) :=
  match pyIdx g.length c.1 with
  | none => g
  | some y =>
      listModify g y (fun row =>
        match pyIdx row.length c.2 with
        | none => row
        | some x => listModify row x (fun cell => { cell with occupant := o }))

/-- Width of the (rectangular) grid. -/
def width (g : List (List Cell)) : ℕ := (g.headD []).length

/-- The cell of the live perception view at window position (i, j) for an
agent at `loc`: the view is the numpy slice `map[y-3:y+4, x-3:x+4]`
(World.set_perception, World.py 160), so its row i is grid row
`windowIdx loc.1 n` at i, and likewise for columns; a missing index is the
IndexError the source would raise. -/
def perceptionCell (g : List (List Cell)) (loc : Coord) (i j : ℕ) : Option Cell :=
  match (windowIdx loc.1 g.length).get? i, (windowIdx loc.2 (width g)).get? j with
  | some ry, some cx => cellAtN g ry cx
  | _, _ => none

/-- The flattened perception view in row-major order, as
`self.perception.flatten()` iterates it (Agents.py 391, 413). -/
def perceptionCells (g : List (List Cell)) (loc : Coord) : List Cell :=
  (windowIdx loc.1 g.length).flatMap (fun ry =>
    (windowIdx loc.2 (width g)).filterMap (fun cx => cellAtN g ry cx))

/-! ### Civilian behavior (Agents.py) -/

/-- The scan loop of Civilian.check_perception_wander (Agents.py 389-400):
walk the flattened perception, counting cells occupied by fleeing
civilians; after each count update, fire when the cell is disaster-marked
or the count exceeds 5 (then the Python loop breaks). -/
def scanWanderTrigger (agents : List Civ) : List Cell → ℕ → Bool
  | [], _ => false
  | c :: rest, cnt =>
      let cnt2 :=
        match c.occupant with
        | some i =>
            match agents.get? i with
            | some a => if a.pattern = .flee then cnt + 1 else cnt
            | none => cnt
        | none => cnt
      if c.disaster ∨ 5 < cnt2 then true else scanWanderTrigger agents rest cnt2

/-- Civilian.find_target, WANDER branch (Agents.py 274-275): a uniformly
random road cell — the oracle head modulo the road-cell count selects it;
an empty road graph raises (randrange over an empty range). -/
def findTargetWander (roadKeys : List Coord) (r : List ℕ) :
    Except Err (Coord × List ℕ) :=
  if roadKeys.length = 0 then .error .valueError
  else .ok (roadKeys.getD ((r.headD 0) % roadKeys.length) (0, 0), r.tail)

/-- Civilian.check_perception_wander (Agents.py 373-400) for a wandering
civilian: scan the perception; on a trigger set the pattern to FLEE, draw
the flee target (find_target reads the shared disaster location — None
raises TypeError) and recompute the path in the same tick.  On an
exception the Python leaves the pattern already set to FLEE but the tick
dies; the exception is surfaced here. -/
def checkPerceptionWander (graph : Graph) (grid : List (List Cell)) (fuel : ℕ)
    (safeCells : List Coord) (disasterLoc : Option Coord) (agents : List Civ)
    (c : Civ) : COut (Civ × List Coord) :=
  if c.pattern = .flee ∨ c.pattern = .safe then .ok (c, safeCells)
  else if scanWanderTrigger agents (perceptionCells grid c.location) 0 then
    match disasterLoc with
    | none => .exn .typeError
    | some d =>
        match findTargetFlee safeCells (graph.map Prod.fst) c.location d with
        | .error e => .exn e
        | .ok (sc2, t) =>
            match findPath graph c.location t fuel with
            | .ret p => .ok ({ c with pattern := .flee, target := t, path := p }, sc2)
            | .exn e => .exn e
            | .fuelOut => .fuelOut
  else .ok (c, safeCells)

/-- Civilian.check_perception_flee (Agents.py 404-421): count perception
cells whose occupant exists, is not this agent, and is not deceased; at 20
or more, a 5 percent roll (oracle head zero) applies an INJURED hit. -/
def checkPerceptionFlee (grid : List (List Cell)) (selfIdx : ℕ)
    (agents : List Civ) (c : Civ) (r : List ℕ) : Civ × List ℕ :=
  let total := (perceptionCells grid c.location).countP (fun cell =>
    match cell.occupant with
    | some i =>
        (i != selfIdx) &&
        (match agents.get? i with
         | some a => a.health != HealthState.deceased
         | none => true)
    | none => false)
  if 20 ≤ total then
    if r.headD 0 = 0 then
      ({ c with health := setInjury c.health .injured }, r.tail)
    else (c, r.tail)
  else (c, r)

/-- The 8 neighbor positions around the perception center, in the source's
order (Agents.py 166). -/
def neighbours : List (ℕ × ℕ) :=
  [(2, 2), (2, 3), (2, 4), (3, 2), (4, 2), (3, 4), (4, 4), (4, 3)]

/-- The body of follow_path's neighbor loop (Agents.py 171-177): score the
neighbor by Chebyshev distance to the perceived waypoint `pd`; on a strict
improvement read the live perception cell (IndexError when outside the
clipped window) and accept it when unoccupied road. -/
def nbStep (grid : List (List Cell)) (loc pd : Coord)
    (acc : (ℕ × ℕ) × Option ℕ) (cell : ℕ × ℕ) :
    Except Err ((ℕ × ℕ) × Option ℕ) :=
  let h := max (pd.1 - cell.1).natAbs (pd.2 - cell.2).natAbs
  let better : Bool :=
    match acc.2 with
    | none => true
    | some b => h < b
  if better then
    match perceptionCell grid loc cell.1 cell.2 with
    | none => Except.error Err.indexError
    | some cv =>
        if cv.occupant = none ∧ cv.is_road then Except.ok (cell, some h)
        else Except.ok acc
  else Except.ok acc

/-- follow_path's waypoint pop (Agents.py 143-163): pop the path head; if
it is 3 or more cells away on an axis, recompute the whole path and pop
again — an empty recomputed path makes that pop raise IndexError. -/
def popWaypoint (graph : Graph) (fuel : ℕ) (c : Civ) :
    COut (Coord × List Coord) :=
  let desired := c.path.headD (0, 0)
  if 3 ≤ (desired.1 - c.location.1).natAbs ∨
      3 ≤ (desired.2 - c.location.2).natAbs then
    match findPath graph c.location c.target fuel with
    | .ret [] => .exn .indexError
    | .ret (d :: rest) => .ok (d, rest)
    | .exn e => .exn e
    | .fuelOut => .fuelOut
  else .ok (desired, c.path.tail)

/-- follow_path's movement choice (Agents.py 164-179): score the 8 neighbor
cells by Chebyshev distance to the waypoint in window coordinates and take
the last strictly improving unoccupied road cell; with no qualifying
neighbor the agent stays in place (window center (3, 3)). -/
def followMove (grid : List (List Cell)) (loc des2 : Coord)
    (path2 : List Coord) : COut (Coord × List Coord) :=
  let pd : Coord := (des2.1 - loc.1 + 3, des2.2 - loc.2 + 3)
  match neighbours.foldlM (nbStep grid loc pd) ((3, 3), none) with
  | .error e => .exn e
  | .ok (best, _) =>
      .ok ((best.1 + loc.1 - 3, best.2 + loc.2 - 3), path2)

/-- Agent.follow_path (Agents.py 126-179).  Pops the path head (replanning
when it drifted 3 or more cells away), then moves to the best improving
free road neighbor, reading the live perception view (an access outside
the clipped window raises IndexError).  Returns the new location and the
remaining path. -/
def followPath (graph : Graph) (grid : List (List Cell)) (fuel : ℕ) (c : Civ) :
    COut (Coord × List Coord) :=
  if c.path.length = 0 then .ok (c.location, c.path)
  else
    match popWaypoint graph fuel c with
    | .exn e => .exn e
    | .fuelOut => .fuelOut
    | .ok (des2, path2) => followMove grid c.location des2 path2

/-- The check_perception dispatch of Civilian.update (Agents.py 240-243):
a wandering civilian runs check_perception_wander (which may consume the
shared safe-cell list), a fleeing one runs check_perception_flee (which
consumes randomness). -/
def perceptionPhase (graph : Graph) (grid : List (List Cell)) (fuel : ℕ)
    (safeCells : List Coord) (disasterLoc : Option Coord) (selfIdx : ℕ)
    (agents : List Civ) (c : Civ) (r : List ℕ) :
    COut (Civ × List Coord × List ℕ) :=
  match c.pattern with
  | .wander =>
      match checkPerceptionWander graph grid fuel safeCells disasterLoc agents c with
      | .ok (c2, sc2) => .ok (c2, sc2, r)
      | .exn e => .exn e
      | .fuelOut => .fuelOut
  | .flee =>
      let (c2, r2) := checkPerceptionFlee grid selfIdx agents c r
      .ok (c2, safeCells, r2)
  | .safe => .ok (c, safeCells, r)

/-- The movement part of Civilian.update (Agents.py 245-254): a fleeing
civilian standing on a shared safe cell becomes SAFE and stops; otherwise
a nonempty path is followed, and an empty one causes retargeting (WANDER
redraws a random target) and a path recomputation with no move this
tick. -/
def movePhase (graph : Graph) (grid : List (List Cell)) (fuel : ℕ)
    (sc2 : List Coord) (c3 : Civ) (r2 : List ℕ) :
    COut (Civ × List Coord × List ℕ) :=
  if c3.pattern = .flee ∧ c3.location ∈ sc2 then
    .ok ({ c3 with pattern := .safe }, sc2, r2)
  else if c3.path.length ≠ 0 then
    match followPath graph grid fuel c3 with
    | .exn e => .exn e
    | .fuelOut => .fuelOut
    | .ok (loc2, path2) => .ok ({ c3 with location := loc2, path := path2 }, sc2, r2)
  else
    match c3.pattern with
    | .wander =>
        match findTargetWander (graph.map Prod.fst) r2 with
        | .error e => .exn e
        | .ok (t, r3) =>
            match findPath graph c3.location t fuel with
            | .ret p => .ok ({ c3 with target := t, path := p }, sc2, r3)
            | .exn e => .exn e
            | .fuelOut => .fuelOut
    | _ =>
        match findPath graph c3.location c3.target fuel with
        | .ret p => .ok ({ c3 with path := p }, sc2, r2)
        | .exn e => .exn e
        | .fuelOut => .fuelOut

/-- Civilian.update (Agents.py 235-254), acting on one civilian within the
current world: early return for SAFE / DECEASED / GRAVELY_INJURED; then
check_perception, worsen_health, then the movement phase. -/
def civUpdate (graph : Graph) (grid : List (List Cell)) (fuel : ℕ)
    (safeCells : List Coord) (disasterLoc : Option Coord) (selfIdx : ℕ)
    (agents : List Civ) (c : Civ) (r : List ℕ) :
    COut (Civ × List Coord × List ℕ) :=
  if c.pattern = .safe ∨ c.health = .deceased ∨ c.health = .gravelyInjured then
    .ok (c, safeCells, r)
  else
    match perceptionPhase graph grid fuel safeCells disasterLoc selfIdx agents c r with
    | .exn e => .exn e
    | .fuelOut => .fuelOut
    | .ok (c2, sc2, r2) =>
        let wh := worsenHealth c2.health c2.timeToWorsen
        movePhase graph grid fuel sc2
          { c2 with health := wh.1, timeToWorsen := wh.2 } r2

/-- One iteration of World.update's agent loop (World.py 183-191): run the
agent's update against the live grid and agent list, then commit the move
by clearing the old cell's occupant and setting the new one (the
perception refresh is a no-op here because perception is modelled as a
live view of the grid). -/
def worldStep (graph : Graph) (fuel : ℕ) (st : WState × List ℕ) (i : ℕ) :
    COut (WState × List ℕ) :=
  let w := st.1
  match w.agents.get? i with
  | none => .ok st
  | some a =>
      let old := a.location
      match civUpdate graph w.grid fuel w.safeCells w.disasterLoc i w.agents a st.2 with
      | .exn e => .exn e
      | .fuelOut => .fuelOut
      | .ok (a2, sc2, r2) =>
          let agents2 := w.agents.set i a2
          let grid2 := setOcc (setOcc w.grid old none) a2.location (some i)
          .ok ({ grid := grid2, agents := agents2, safeCells := sc2,
                 disasterLoc := w.disasterLoc }, r2)

def worldUpdateGo (graph : Graph) (fuel : ℕ) :
    List ℕ → WState × List ℕ → COut (WState × List ℕ)
  | [], st => .ok st
  | i :: rest, st =>
      match worldStep graph fuel st i with
      | .ok st2 => worldUpdateGo graph fuel rest st2
      | .exn e => .exn e
      | .fuelOut => .fuelOut

/-- World.update (World.py 165-191): iterate the agents in list order,
updating and committing each. -/
def worldUpdate (graph : Graph) (fuel : ℕ) (w : WState) (r : List ℕ) :
    COut (WState × List ℕ) :=
  worldUpdateGo graph fuel (List.range w.agents.length) (w, r)

/-! ### Disaster impact (WorldHandlers.py) -/

/-- The death radius in window coordinates (WorldHandlers.py 51). -/
def deathRadius : List (ℕ × ℕ) :=
  [(2, 2), (2, 3), (2, 4), (3, 2), (4, 2), (3, 4), (4, 4), (4, 3), (3, 3)]

/-- WorldHandlers.injure_near_disaster (22-79): walk the 7x7 slice around
the disaster location in row-major window coordinates; skip building
cells; kill civilian occupants inside the death radius, and give the rest
a coin flip (oracle head even: INJURED, else GRAVELY_INJURED) through
set_injury. -/
def injureNearDisaster (w : WState) (loc : Coord) (r : List ℕ) :
    WState × List ℕ :=
  let rows := windowIdx loc.1 w.grid.length
  let cols := windowIdx loc.2 (width w.grid)
  let step := fun (st : List Civ × List ℕ) (ij : (ℕ × ℕ) × (ℕ × ℕ)) =>
    match cellAtN w.grid ij.1.2 ij.2.2 with
    | none => st
    | some cell =>
        if cell.is_road then
          match cell.occupant with
          | some idx =>
              if (ij.1.1, ij.2.1) ∈ deathRadius then
                (listModify st.1 idx
                  (fun a => { a with health := setInjury a.health .deceased }), st.2)
              else
                let lvl := if st.2.headD 0 % 2 = 0 then HealthState.injured
                  else HealthState.gravelyInjured
                (listModify st.1 idx
                  (fun a => { a with health := setInjury a.health lvl }), st.2.tail)
          | none => st
        else st
  let idxPairs := rows.enum.flatMap (fun ri => cols.enum.map (fun cj => (ri, cj)))
  let res := idxPairs.foldl step (w.agents, r)
  ({ w with agents := res.1 }, res.2)

/-- Modelled from the spec: the disaster-start entry point
(World.set_disaster_loc and the wiring that posts the "disaster_start"
event) is absent from src — only Render.py calls it and
injure_near_disaster subscribes to the event.  Following the spec, it
records the shared disaster location and invokes the handler; cell
disaster-marking does not affect health and is not modelled further. -/
def disasterStart (w : WState) (loc : Coord) (r : List ℕ) : WState × List ℕ :=
  injureNearDisaster { w with disasterLoc := some loc } loc r

/-- Civilian.__init__ (Agents.py 226-232) and Agent.__init__ (30-35):
pattern WANDER, health HEALTHY, countdown unset, then a random wander
target and an initial path. -/
def civInit (graph : Graph) (fuel : ℕ) (loc : Coord) (r : List ℕ) :
    COut (Civ × List ℕ) :=
  match findTargetWander (graph.map Prod.fst) r with
  | .error e => .exn e
  | .ok (t, r2) =>
      match findPath graph loc t fuel with
      | .ret p => .ok ({ pattern := .wander, health := .healthy, timeToWorsen := none,
                         location := loc, target := t, path := p }, r2)
      | .exn e => .exn e
      | .fuelOut => .fuelOut

/-! ### Window alignment

On a grid with at least 8 rows and columns (the program's grids are 10x10
and 60x60; the spec's is 100x100), a nonempty perception window is always
aligned: window row i is grid row y - 3 + i.  Windows for centers within 3
cells of a low edge are empty (the C7 defect), and then any access into
them raises, so misaligned reads never occur. -/

theorem get?_range'_eq (s n m : ℕ) :
    (List.range' s n).get? m = if m < n then some (s + m) else none := by
  rw [List.get?_eq_getElem?]
  rcases Nat.lt_or_ge m n with h | h
  · rw [List.getElem?_range' _ _ h, if_pos h]
    simp
  · rw [if_neg (by omega), List.getElem?_eq_none]
    simp [List.length_range']
    omega

theorem windowIdx_get {y : ℤ} {n : ℕ} (hn : 8 ≤ n) (hy0 : 0 ≤ y) (hyn : y < n)
    {i ry : ℕ} (h : (windowIdx y n).get? i = some ry) :
    3 ≤ y ∧ (ry : ℤ) = y - 3 + i ∧ ry < n := by
  unfold windowIdx pySliceIdx pySliceNorm at h
  rw [get?_range'_eq] at h
  by_cases hy3 : y - 3 < 0
  · exfalso
    rw [if_pos hy3] at h
    have hky : ¬ (y + 4 < 0) := by omega
    rw [if_neg hky] at h
    have hempty : (y + 4).toNat.min n - ((y - 3 + n).toNat.min n) = 0 := by
      have hB : ((y - 3 + (n : ℤ)).toNat).min n = (y - 3 + (n : ℤ)).toNat :=
        Nat.min_eq_left (by omega)
      have hA : ((y + 4).toNat).min n ≤ (y + 4).toNat := Nat.min_le_left _ _
      omega
    rw [hempty] at h
    simp at h
  · rw [if_neg hy3] at h
    have hky : ¬ (y + 4 < 0) := by omega
    rw [if_neg hky] at h
    have hy3n : 3 ≤ y := by omega
    have hstart : (y - 3).toNat.min n = (y - 3).toNat := Nat.min_eq_left (by omega)
    rw [hstart] at h
    by_cases hin : i < (y + 4).toNat.min n - (y - 3).toNat
    · rw [if_pos hin] at h
      have hry := Option.some.inj h
      have hA2 : ((y + 4).toNat).min n ≤ n := Nat.min_le_right _ _
      refine ⟨hy3n, ?_, ?_⟩
      · omega
      · omega
    · rw [if_neg hin] at h
      simp at h

/-! ### Grid access and update lemmas -/

theorem listModify_length (l : List α) (i : ℕ) (f : α → α) :
    (listModify l i f).length = l.length := by
  induction l generalizing i with
  | nil => rfl
  | cons a rest ih =>
      cases i with
      | zero => rfl
      | succ i => simp [listModify, ih]

theorem listModify_get_same {l : List α} {i : ℕ} {f : α → α} :
    (listModify l i f).get? i = (l.get? i).map f := by
  induction l generalizing i with
  | nil => cases i <;> rfl
  | cons a rest ih =>
      cases i with
      | zero => rfl
      | succ i => simpa [listModify] using ih

theorem listModify_get_ne {l : List α} {i j : ℕ} {f : α → α} (h : i ≠ j) :
    (listModify l i f).get? j = l.get? j := by
  induction l generalizing i j with
  | nil => cases i <;> rfl
  | cons a rest ih =>
      cases i with
      | zero => cases j with
          | zero => exact absurd rfl h
          | succ j => rfl
      | succ i =>
          cases j with
          | zero => rfl
          | succ j => simpa [listModify] using ih (by omega)

/-- pyIdx on a nonnegative in-range coordinate. -/
theorem pyIdx_nonneg {n : ℕ} {i : ℤ} (h0 : 0 ≤ i) (hn : i < n) :
    pyIdx n i = some i.toNat := by
  unfold pyIdx
  have h1 : ¬ i < 0 := by omega
  simp only [if_neg h1]
  rw [if_pos ⟨h0, hn⟩]

theorem cellAt_eq_cellAtN {g : List (List Cell)} {c : Coord}
    (hrect : ∀ row ∈ g, row.length = width g)
    (h0 : 0 ≤ c.1) (h1 : c.1 < g.length) (h2 : 0 ≤ c.2) (h3 : c.2 < width g) :
    cellAt g c = cellAtN g c.1.toNat c.2.toNat := by
  unfold cellAt cellAtN
  rw [pyIdx_nonneg h0 h1]
  show (match g.get? c.1.toNat with
        | none => none
        | some row =>
            match pyIdx row.length c.2 with
            | none => none
            | some x => row.get? x) =
      (g.get? c.1.toNat).bind (fun row => row.get? c.2.toNat)
  cases hrow : g.get? c.1.toNat with
  | none => rfl
  | some row =>
      have hlen : row.length = width g := hrect row (List.get?_mem hrow)
      show (match pyIdx row.length c.2 with
            | none => none
            | some x => row.get? x) = row.get? c.2.toNat
      rw [hlen, pyIdx_nonneg h2 h3]

theorem setOcc_rows {g : List (List Cell)} {c : Coord} {o : Option ℕ} :
    (setOcc g c o).length = g.length := by
  unfold setOcc
  cases pyIdx g.length c.1 with
  | none => rfl
  | some y => simp [listModify_length]

theorem setOcc_row_get {g : List (List Cell)} {c : Coord} {o : Option ℕ} {y : ℕ} :
    (setOcc g c o).get? y = (g.get? y).map (fun row =>
      if pyIdx g.length c.1 = some y then
        match pyIdx row.length c.2 with
        | none => row
        | some x => listModify row x (fun cell => { cell with occupant := o })
      else row) := by
  unfold setOcc
  cases hp : pyIdx g.length c.1 with
  | none =>
      simp only [hp]
      cases g.get? y <;> simp
  | some y2 =>
      by_cases hy : y2 = y
      · subst hy
        simp only [hp, listModify_get_same]
        cases g.get? y2 <;> simp
      · simp only [hp, listModify_get_ne hy]
        cases hg : g.get? y
        · simp
        · simp [Ne.symm hy, hy]

theorem width_get0 (g : List (List Cell)) :
    width g = ((g.get? 0).getD []).length := by
  cases g <;> rfl

theorem setOcc_width {g : List (List Cell)} {c : Coord} {o : Option ℕ} :
    width (setOcc g c o) = width g := by
  rw [width_get0, width_get0, setOcc_row_get]
  cases hg : g.get? 0
  · simp
  · simp only [Option.map_some', Option.getD_some]
    split
    · split <;> simp [listModify_length]
    · rfl

theorem setOcc_rect {g : List (List Cell)} {c : Coord} {o : Option ℕ}
    (hrect : ∀ row ∈ g, row.length = width g) :
    (∀ row ∈ setOcc g c o, row.length = width g) ∧ width (setOcc g c o) = width g := by
  have hget : ∀ y row2, (setOcc g c o).get? y = some row2 →
      ∃ row, g.get? y = some row ∧ row2.length = row.length := by
    intro y row2 h2
    rw [setOcc_row_get] at h2
    cases hg : g.get? y with
    | none => rw [hg] at h2; simp at h2
    | some row =>
        rw [hg] at h2
        simp at h2
        refine ⟨row, rfl, ?_⟩
        rw [← h2]
        split
        · split
          · rfl
          · simp [listModify_length]
        · rfl
  constructor
  · intro row2 hmem
    obtain ⟨y, hy⟩ := List.get?_of_mem hmem
    obtain ⟨row, hrow, hlen⟩ := hget y row2 hy
    rw [hlen]
    exact hrect row (List.get?_mem hrow)
  · exact setOcc_width

/-! ### Perception access and follow_path movement -/

/-- Every index produced by a window slice is within the axis. -/
theorem windowIdx_lt {y : ℤ} {n : ℕ} {i ry : ℕ}
    (h : (windowIdx y n).get? i = some ry) : ry < n := by
  unfold windowIdx pySliceIdx at h
  rw [get?_range'_eq] at h
  have hle : pySliceNorm (y + 4) n ≤ n := by
    unfold pySliceNorm; exact Nat.min_le_right _ _
  by_cases hin : i < pySliceNorm (y + 4) n - pySliceNorm (y - 3) n
  · rw [if_pos hin] at h
    have := Option.some.inj h
    omega
  · rw [if_neg hin] at h
    simp at h

theorem get?_of_lt {l : List α} {i : ℕ} (h : i < l.length) :
    ∃ a, l.get? i = some a :=
  ⟨l.get ⟨i, h⟩, List.get?_eq_get h⟩

/-- A well-formed centered perception window: the 7x7 slice around the
location is not clipped on either axis — both window index lists have the
full 7 entries. -/
def CenteredWindow (g : List (List Cell)) (loc : Coord) : Prop :=
  (windowIdx loc.1 g.length).length = 7 ∧ (windowIdx loc.2 (width g)).length = 7

instance (g : List (List Cell)) (loc : Coord) : Decidable (CenteredWindow g loc) := by
  unfold CenteredWindow; infer_instance

/-- On a rectangular grid, every access into a well-formed centered window
succeeds. -/
theorem perceptionCell_some {g : List (List Cell)} {loc : Coord}
    (hrect : ∀ row ∈ g, row.length = width g)
    (hcw : CenteredWindow g loc) {i j : ℕ} (hi : i < 7) (hj : j < 7) :
    ∃ cv, perceptionCell g loc i j = some cv := by
  obtain ⟨ry, hry⟩ := get?_of_lt (l := windowIdx loc.1 g.length) (by rw [hcw.1]; exact hi)
  obtain ⟨cx, hcx⟩ := get?_of_lt (l := windowIdx loc.2 (width g)) (by rw [hcw.2]; exact hj)
  have h1 : ry < g.length := windowIdx_lt hry
  have h2 : cx < width g := windowIdx_lt hcx
  obtain ⟨row, hrow⟩ := get?_of_lt (l := g) h1
  have hlen : row.length = width g := hrect row (List.get?_mem hrow)
  obtain ⟨cv, hcv⟩ := get?_of_lt (l := row) (by rw [hlen]; exact h2)
  refine ⟨cv, ?_⟩
  unfold perceptionCell
  rw [hry, hcx]
  show cellAtN g ry cx = some cv
  unfold cellAtN
  rw [hrow]
  show row.get? cx = some cv
  exact hcv

/-- On a grid with both dimensions at least 8 and an in-bounds center, a
successful perception access at window position (i, j) is aligned: it reads
the grid cell at exactly (loc.1 - 3 + i, loc.2 - 3 + j), which is in
bounds, and the center is at least 3 away from both low edges. -/
theorem perceptionCell_aligned {g : List (List Cell)} {loc : Coord} {i j : ℕ}
    {cv : Cell} (hn : 8 ≤ g.length) (hw : 8 ≤ width g)
    (hy0 : 0 ≤ loc.1) (hyn : loc.1 < g.length)
    (hx0 : 0 ≤ loc.2) (hxn : loc.2 < width g)
    (h : perceptionCell g loc i j = some cv) :
    ∃ ry cx : ℕ, (ry : ℤ) = loc.1 - 3 + i ∧ (cx : ℤ) = loc.2 - 3 + j ∧
      ry < g.length ∧ cx < width g ∧ 3 ≤ loc.1 ∧ 3 ≤ loc.2 ∧
      cellAtN g ry cx = some cv := by
  unfold perceptionCell at h
  cases hry : (windowIdx loc.1 g.length).get? i with
  | none => rw [hry] at h; simp at h
  | some ry =>
      cases hcx : (windowIdx loc.2 (width g)).get? j with
      | none => rw [hry, hcx] at h; simp at h
      | some cx =>
          rw [hry, hcx] at h
          obtain ⟨hy3, hyeq, hylt⟩ := windowIdx_get hn hy0 hyn hry
          obtain ⟨hx3, hxeq, hxlt⟩ := windowIdx_get hw hx0 hxn hcx
          exact ⟨ry, cx, hyeq, hxeq, hylt, hxlt, hy3, hx3, h⟩

/-- A neighbor cell of the perception window that is "occupied or
non-road": the access succeeds and the cell fails follow_path's
unoccupied-road test. -/
def blockedAt (grid : List (List Cell)) (loc : Coord) (p : ℕ × ℕ) : Bool :=
  match perceptionCell grid loc p.1 p.2 with
  | none => false
  | some cv => !(decide (cv.occupant = none) && cv.is_road)

theorem blockedAt_spec {grid : List (List Cell)} {loc : Coord} {p : ℕ × ℕ}
    (h : blockedAt grid loc p = true) :
    ∃ cv, perceptionCell grid loc p.1 p.2 = some cv ∧
      ¬ (cv.occupant = none ∧ cv.is_road = true) := by
  unfold blockedAt at h
  cases hpc : perceptionCell grid loc p.1 p.2 with
  | none =>
      simp only [hpc] at h
      exact Bool.noConfusion h
  | some cv =>
      simp only [hpc] at h
      refine ⟨cv, rfl, ?_⟩
      intro ⟨h1, h2⟩
      rw [h1, h2] at h
      simp at h

/-- A blocked neighbor leaves the loop accumulator unchanged. -/
theorem nbStep_blocked {grid : List (List Cell)} {loc pd : Coord}
    {acc : (ℕ × ℕ) × Option ℕ} {cell : ℕ × ℕ} {cv : Cell}
    (hcv : perceptionCell grid loc cell.1 cell.2 = some cv)
    (hblock : ¬ (cv.occupant = none ∧ cv.is_road = true)) :
    nbStep grid loc pd acc cell = .ok acc := by
  obtain ⟨ap, ao⟩ := acc
  cases ao with
  | none => simp [nbStep, hcv, hblock]
  | some b =>
      by_cases hlt : (pd.1 - (cell.1 : ℤ)).natAbs ⊔ (pd.2 - (cell.2 : ℤ)).natAbs < b
      · simp [nbStep, hcv, hblock, hlt]
      · simp [nbStep, hlt]

/-- A successful loop step either keeps the accumulator or switches it to
the scanned neighbor, which must then be a free road cell of the window. -/
theorem nbStep_ok_cases {grid : List (List Cell)} {loc pd : Coord}
    {acc acc2 : (ℕ × ℕ) × Option ℕ} {cell : ℕ × ℕ}
    (h : nbStep grid loc pd acc cell = .ok acc2) :
    acc2 = acc ∨ (acc2.1 = cell ∧ ∃ cv,
      perceptionCell grid loc cell.1 cell.2 = some cv ∧
      cv.occupant = none ∧ cv.is_road = true) := by
  obtain ⟨ap, ao⟩ := acc
  cases hpc : perceptionCell grid loc cell.1 cell.2 with
  | none =>
      cases ao with
      | none => simp [nbStep, hpc] at h
      | some b =>
          by_cases hlt : (pd.1 - (cell.1 : ℤ)).natAbs ⊔ (pd.2 - (cell.2 : ℤ)).natAbs < b
          · simp [nbStep, hpc, hlt] at h
          · simp [nbStep, hlt] at h
            left
            exact h.symm
  | some cv =>
      by_cases hfree : cv.occupant = none ∧ cv.is_road = true
      · cases ao with
        | none =>
            simp [nbStep, hpc, hfree.1, hfree.2] at h
            right
            rw [← h]
            exact ⟨rfl, cv, rfl, hfree⟩
        | some b =>
            by_cases hlt : (pd.1 - (cell.1 : ℤ)).natAbs ⊔ (pd.2 - (cell.2 : ℤ)).natAbs < b
            · simp [nbStep, hpc, hfree.1, hfree.2, hlt] at h
              right
              rw [← h]
              exact ⟨rfl, cv, rfl, hfree⟩
            · simp [nbStep, hlt] at h
              left
              exact h.symm
      · cases ao with
        | none =>
            simp [nbStep, hpc, hfree] at h
            left
            exact h.symm
        | some b =>
            by_cases hlt : (pd.1 - (cell.1 : ℤ)).natAbs ⊔ (pd.2 - (cell.2 : ℤ)).natAbs < b
            · simp [nbStep, hpc, hfree, hlt] at h
              left
              exact h.symm
            · simp [nbStep, hlt] at h
              left
              exact h.symm

/-- The movement target invariant carried through the neighbor loop: the
accumulator is still the window center, or a free road cell of the window
among the 8 neighbor positions. -/
def NbOk (grid : List (List Cell)) (loc : Coord) (p : ℕ × ℕ) : Prop :=
  p = (3, 3) ∨ (p ∈ neighbours ∧ ∃ cv,
    perceptionCell grid loc p.1 p.2 = some cv ∧
    cv.occupant = none ∧ cv.is_road = true)

theorem nbFold_ok {grid : List (List Cell)} {loc pd : Coord} :
    ∀ (l : List (ℕ × ℕ)), (∀ e ∈ l, e ∈ neighbours) →
    ∀ acc acc2, NbOk grid loc acc.1 →
    l.foldlM (nbStep grid loc pd) acc = .ok acc2 → NbOk grid loc acc2.1 := by
  intro l
  induction l with
  | nil =>
      intro _ acc acc2 hok h
      injection h with h2
      rw [← h2]
      exact hok
  | cons e rest ih =>
      intro hmem acc acc2 hok h
      rw [List.foldlM_cons] at h
      cases hstep : nbStep grid loc pd acc e with
      | error err => rw [hstep] at h; exact Except.noConfusion h
      | ok acc1 =>
          rw [hstep] at h
          have hok1 : NbOk grid loc acc1.1 := by
            rcases nbStep_ok_cases hstep with h1 | ⟨h1, cv, hcv, ho, hr⟩
            · rw [h1]; exact hok
            · right
              rw [h1]
              exact ⟨hmem e (List.mem_cons_self _ _), cv, hcv, ho, hr⟩
          exact ih (fun x hx => hmem x (List.mem_cons_of_mem _ hx)) acc1 acc2 hok1 h

theorem nbFold_blocked {grid : List (List Cell)} {loc pd : Coord} :
    ∀ (l : List (ℕ × ℕ)), (∀ e ∈ l, blockedAt grid loc e = true) →
    ∀ acc, l.foldlM (nbStep grid loc pd) acc = .ok acc := by
  intro l
  induction l with
  | nil => intro _ acc; rfl
  | cons e rest ih =>
      intro hmem acc
      rw [List.foldlM_cons]
      obtain ⟨cv, hcv, hb⟩ := blockedAt_spec (hmem e (List.mem_cons_self _ _))
      rw [nbStep_blocked hcv hb]
      exact ih (fun x hx => hmem x (List.mem_cons_of_mem _ hx)) acc

/-- The outcome of the movement choice: stay at the center, or move to a
free road cell read from the live perception window. -/
theorem followMove_loc {grid : List (List Cell)} {loc des2 : Coord}
    {path2 : List Coord} {loc2 : Coord} {p2 : List Coord}
    (h : followMove grid loc des2 path2 = .ok (loc2, p2)) :
    p2 = path2 ∧ (loc2 = loc ∨ ∃ p : ℕ × ℕ, p ∈ neighbours ∧
      (∃ cv, perceptionCell grid loc p.1 p.2 = some cv ∧
        cv.occupant = none ∧ cv.is_road = true) ∧
      loc2 = ((p.1 : ℤ) + loc.1 - 3, (p.2 : ℤ) + loc.2 - 3)) := by
  simp only [followMove] at h
  cases hres : neighbours.foldlM
      (nbStep grid loc (des2.1 - loc.1 + 3, des2.2 - loc.2 + 3)) ((3, 3), none) with
  | error e =>
      rw [hres] at h
      exact COut.noConfusion h
  | ok acc =>
      obtain ⟨best, bs⟩ := acc
      rw [hres] at h
      injection h with h2
      rw [Prod.mk.injEq] at h2
      refine ⟨h2.2.symm, ?_⟩
      have hok : NbOk grid loc best :=
        nbFold_ok neighbours (fun e he => he) ((3, 3), none) (best, bs) (Or.inl rfl) hres
      rcases hok with hc | ⟨hmem, cv, hcv, hocc, hroad⟩
      · left
        subst hc
        rw [← h2.1]
        show (((3 : ℕ) : ℤ) + loc.1 - 3, ((3 : ℕ) : ℤ) + loc.2 - 3) = loc
        rw [show ((3 : ℕ) : ℤ) + loc.1 - 3 = loc.1 by push_cast; ring,
          show ((3 : ℕ) : ℤ) + loc.2 - 3 = loc.2 by push_cast; ring]
      · right
        exact ⟨best, hmem, ⟨cv, hcv, hocc, hroad⟩, h2.1.symm⟩

/-- With every neighbor blocked, the movement choice stays at the center. -/
theorem followMove_blocked {grid : List (List Cell)} {loc des2 : Coord}
    {path2 : List Coord}
    (hblock : ∀ p ∈ neighbours, blockedAt grid loc p = true) :
    followMove grid loc des2 path2 = .ok (loc, path2) := by
  simp only [followMove]
  rw [@nbFold_blocked grid loc (des2.1 - loc.1 + 3, des2.2 - loc.2 + 3)
    neighbours hblock ((3, 3), none)]
  show COut.ok ((((3 : ℕ) : ℤ) + loc.1 - 3, ((3 : ℕ) : ℤ) + loc.2 - 3), path2) = _
  rw [show ((3 : ℕ) : ℤ) + loc.1 - 3 = loc.1 by push_cast; ring,
    show ((3 : ℕ) : ℤ) + loc.2 - 3 = loc.2 by push_cast; ring, Prod.mk.eta]

/-- The outcome of follow_path on the agent's location: stay, or move to a
free road cell read from the live perception window. -/
theorem followPath_loc {graph : Graph} {grid : List (List Cell)} {fuel : ℕ}
    {c : Civ} {loc2 : Coord} {p2 : List Coord}
    (h : followPath graph grid fuel c = .ok (loc2, p2)) :
    loc2 = c.location ∨ ∃ p : ℕ × ℕ, p ∈ neighbours ∧
      (∃ cv, perceptionCell grid c.location p.1 p.2 = some cv ∧
        cv.occupant = none ∧ cv.is_road = true) ∧
      loc2 = ((p.1 : ℤ) + c.location.1 - 3, (p.2 : ℤ) + c.location.2 - 3) := by
  unfold followPath at h
  by_cases hlen : c.path.length = 0
  · rw [if_pos hlen] at h
    injection h with h2
    rw [Prod.mk.injEq] at h2
    left
    exact h2.1.symm
  · rw [if_neg hlen] at h
    cases hpw : popWaypoint graph fuel c with
    | exn e => rw [hpw] at h; exact COut.noConfusion h
    | fuelOut => rw [hpw] at h; exact COut.noConfusion h
    | ok dp =>
        rw [hpw] at h
        exact (followMove_loc h).2

/-! ### C9: follow_path with every neighbor blocked -/

/-- A 7x7 grid of unoccupied non-road cells. -/
def gridC9 : List (List Cell) :=
  List.replicate 7 (List.replicate 7 ⟨false, none, false⟩)

/-- A wandering civilian at the center of gridC9 whose stale path points far
outside the grid. -/
def civC9 : Civ :=
  { pattern := .wander, health := .healthy, timeToWorsen := none,
    location := (3, 3), target := (10, 10), path := [(10, 10)] }

/-- The road graph holding only the agent's own cell, with no neighbors. -/
def graphC9 : Graph := [((3, 3), [])]

/-- A wandering civilian at the center of gridC9 whose path head is an
adjacent cell. -/
def civC9b : Civ :=
  { pattern := .wander, health := .healthy, timeToWorsen := none,
    location := (3, 3), target := (4, 3), path := [(4, 3)] }

/-- C9 (counterexample to the claim as stated): an agent at the center of a
7x7 grid — a non-empty path and a well-formed centered perception window —
with all 8 neighbor cells non-road, does not stay in place: its stale
waypoint is 3 or more cells away, the replanning branch recomputes a path
toward the unreachable target, gets the empty path back, and the
`self.path.pop(0)` on it raises IndexError before the neighbor scan is ever
reached. -/
theorem C9_blocked_replan_fault :
    civC9.path.length ≠ 0 ∧
    CenteredWindow gridC9 civC9.location ∧
    (∀ p ∈ neighbours, blockedAt gridC9 civC9.location p = true) ∧
    followPath graphC9 gridC9 3 civC9 = .exn .indexError :=
  ⟨by decide, by decide, by decide, rfl⟩

/-- C9 (amended): for every agent with a non-empty path whose waypoint pop
succeeds (the path head is still within 2 cells on both axes, or the
recomputed path is non-empty), if all 8 neighbor reads of the live
perception window yield an occupied or non-road cell, follow_path returns
the agent's current, unchanged location. -/
theorem C9_blocked_stays {graph : Graph} {grid : List (List Cell)} {fuel : ℕ}
    {c : Civ} {d : Coord} {rest : List Coord}
    (hlen : c.path.length ≠ 0)
    (hblock : ∀ p ∈ neighbours, blockedAt grid c.location p = true)
    (hpw : popWaypoint graph fuel c = .ok (d, rest)) :
    followPath graph grid fuel c = .ok (c.location, rest) := by
  unfold followPath
  rw [if_neg hlen, hpw]
  exact followMove_blocked hblock

/-- C9 witness: the amended theorem on the all-blocked 7x7 grid with an
adjacent waypoint — the agent stays at (3, 3). -/
theorem C9_blocked_stays_witness :
    followPath [] gridC9 0 civC9b = .ok ((3, 3), []) :=
  C9_blocked_stays (by decide) (by decide) rfl

/-! ### C6: unreachable targets and the empty-path replanning fault -/

/-- A two-component road graph: (0, 0) and (9, 9) are both road keys but
neither lists any neighbor. -/
def graphC6 : Graph := [((0, 0), []), ((9, 9), [])]

/-- A wandering civilian at (0, 0) whose stale path and target point at the
disconnected road cell (9, 9). -/
def civC6 : Civ :=
  { pattern := .wander, health := .healthy, timeToWorsen := none,
    location := (0, 0), target := (9, 9), path := [(9, 9)] }

/-- C6: on the disconnected road graph graphC6, find_path from (0, 0) to
(9, 9) returns the empty sequence for every sufficient fuel — no exception
and no partial path, as claimed — but follow_path does NOT handle the empty
path in its replanning branch: the stale waypoint (9, 9) is 3 or more cells
away, the recomputed path toward the unreachable target comes back empty,
and the `self.path.pop(0)` on it raises IndexError instead of leaving the
agent in place. -/
theorem C6_unreachable_empty_replan_fault :
    (∃ F, ∀ fuel, F ≤ fuel → findPath graphC6 (0, 0) (9, 9) fuel = .ret []) ∧
    followPath graphC6 gridC9 5 civC6 = .exn .indexError := by
  constructor
  · refine findPath_unreach (by decide) (by decide) ?_
    rintro ⟨k, w⟩
    cases w with
    | cons b nbs ha hb hw =>
        rw [show dget graphC6 (0, 0) = some [] from rfl] at ha
        injection ha with h2
        rw [← h2] at hb
        simp at hb
  · rfl

/-! ### C5: the occupancy invariant -/

/-- The effect of the occupant write on cell reads: only the written cell
changes, and only its occupant field. -/
theorem cellAtN_setOcc {g : List (List Cell)} {c : Coord} {o : Option ℕ}
    (hrect : ∀ row ∈ g, row.length = width g)
    (h0 : 0 ≤ c.1) (h1 : c.1 < g.length) (h2 : 0 ≤ c.2) (h3 : c.2 < width g)
    (y x : ℕ) :
    cellAtN (setOcc g c o) y x =
      if y = c.1.toNat ∧ x = c.2.toNat then
        (cellAtN g y x).map (fun cell => { cell with occupant := o })
      else cellAtN g y x := by
  unfold cellAtN
  rw [setOcc_row_get, pyIdx_nonneg h0 h1]
  cases hrow : g.get? y with
  | none =>
      simp only [hrow, Option.map_none', Option.none_bind]
      split <;> simp
  | some row =>
      have hlen : row.length = width g := hrect row (List.get?_mem hrow)
      simp only [hrow, Option.map_some', Option.some_bind]
      by_cases hy : c.1.toNat = y
      · rw [if_pos (by rw [hy])]
        simp only [hlen, pyIdx_nonneg h2 h3]
        by_cases hx : c.2.toNat = x
        · subst hx
          rw [listModify_get_same, if_pos ⟨hy.symm, rfl⟩]
        · rw [listModify_get_ne hx, if_neg (fun hc => hx hc.2.symm)]
      · rw [if_neg (fun hc => hy (Option.some.inj hc)),
          if_neg (fun hc => hy hc.1.symm)]

/-- check_perception_flee only touches health and the randomness stream. -/
theorem checkPerceptionFlee_fields (grid : List (List Cell)) (selfIdx : ℕ)
    (agents : List Civ) (c : Civ) (r : List ℕ) :
    (checkPerceptionFlee grid selfIdx agents c r).1.location = c.location ∧
    (checkPerceptionFlee grid selfIdx agents c r).1.pattern = c.pattern ∧
    (checkPerceptionFlee grid selfIdx agents c r).1.path = c.path ∧
    (checkPerceptionFlee grid selfIdx agents c r).1.target = c.target ∧
    (checkPerceptionFlee grid selfIdx agents c r).1.timeToWorsen = c.timeToWorsen ∧
    ((checkPerceptionFlee grid selfIdx agents c r).1.health = c.health ∨
      (checkPerceptionFlee grid selfIdx agents c r).1.health =
        setInjury c.health .injured) := by
  simp only [checkPerceptionFlee]
  split
  · split
    · exact ⟨rfl, rfl, rfl, rfl, rfl, Or.inr rfl⟩
    · exact ⟨rfl, rfl, rfl, rfl, rfl, Or.inl rfl⟩
  · exact ⟨rfl, rfl, rfl, rfl, rfl, Or.inl rfl⟩

/-- check_perception_wander never moves the agent and never touches its
health or countdown. -/
theorem checkPerceptionWander_fields {graph : Graph} {grid : List (List Cell)}
    {fuel : ℕ} {safeCells : List Coord} {disasterLoc : Option Coord}
    {agents : List Civ} {c c2 : Civ} {sc2 : List Coord}
    (h : checkPerceptionWander graph grid fuel safeCells disasterLoc agents c =
      .ok (c2, sc2)) :
    c2.location = c.location ∧ c2.health = c.health ∧
    c2.timeToWorsen = c.timeToWorsen := by
  unfold checkPerceptionWander at h
  split at h
  · injection h with h2
    rw [Prod.mk.injEq] at h2
    exact ⟨(congrArg Civ.location h2.1).symm, (congrArg Civ.health h2.1).symm,
      (congrArg Civ.timeToWorsen h2.1).symm⟩
  · split at h
    · split at h
      · exact COut.noConfusion h
      · split at h
        · exact COut.noConfusion h
        · split at h
          · injection h with h2
            rw [Prod.mk.injEq] at h2
            exact ⟨(congrArg Civ.location h2.1).symm, (congrArg Civ.health h2.1).symm,
              (congrArg Civ.timeToWorsen h2.1).symm⟩
          · exact COut.noConfusion h
          · exact COut.noConfusion h
    · injection h with h2
      rw [Prod.mk.injEq] at h2
      exact ⟨(congrArg Civ.location h2.1).symm, (congrArg Civ.health h2.1).symm,
        (congrArg Civ.timeToWorsen h2.1).symm⟩

/-- The perception phase never moves the agent, and changes its health at
most by a set_injury INJURED hit (the flee trample roll). -/
theorem perceptionPhase_fields {graph : Graph} {grid : List (List Cell)}
    {fuel : ℕ} {safeCells : List Coord} {disasterLoc : Option Coord}
    {selfIdx : ℕ} {agents : List Civ} {c c2 : Civ} {sc2 : List Coord}
    {r r2 : List ℕ}
    (h : perceptionPhase graph grid fuel safeCells disasterLoc selfIdx agents c r =
      .ok (c2, sc2, r2)) :
    c2.location = c.location ∧
    (c2.health = c.health ∨ c2.health = setInjury c.health .injured) := by
  unfold perceptionPhase at h
  cases hpat : c.pattern with
  | wander =>
      rw [hpat] at h
      cases hcw : checkPerceptionWander graph grid fuel safeCells disasterLoc agents c with
      | exn e => simp only [hcw] at h; exact COut.noConfusion h
      | fuelOut => simp only [hcw] at h; exact COut.noConfusion h
      | ok t =>
          obtain ⟨c2', sc2'⟩ := t
          simp only [hcw] at h
          injection h with h2
          rw [Prod.mk.injEq] at h2
          obtain ⟨hl, hh, _⟩ := checkPerceptionWander_fields hcw
          rw [← h2.1]
          exact ⟨hl, Or.inl hh⟩
  | flee =>
      rw [hpat] at h
      cases hcf : checkPerceptionFlee grid selfIdx agents c r with
      | mk cf rf =>
          simp only [hcf] at h
          injection h with h2
          rw [Prod.mk.injEq] at h2
          obtain ⟨hl, _, _, _, _, hh⟩ := checkPerceptionFlee_fields grid selfIdx agents c r
          rw [hcf] at hl hh
          rw [← h2.1]
          exact ⟨hl, hh⟩
  | safe =>
      rw [hpat] at h
      injection h with h2
      rw [Prod.mk.injEq] at h2
      rw [← h2.1]
      exact ⟨rfl, Or.inl rfl⟩

/-- The movement phase either keeps the agent's location, or moves it to a
free road cell read from the live perception window around it. -/
theorem movePhase_loc {graph : Graph} {grid : List (List Cell)} {fuel : ℕ}
    {sc2 : List Coord} {c3 c4 : Civ} {sc3 : List Coord} {r2 r3 : List ℕ}
    (h : movePhase graph grid fuel sc2 c3 r2 = .ok (c4, sc3, r3)) :
    c4.location = c3.location ∨ ∃ p : ℕ × ℕ, p ∈ neighbours ∧
      (∃ cv, perceptionCell grid c3.location p.1 p.2 = some cv ∧
        cv.occupant = none ∧ cv.is_road = true) ∧
      c4.location = ((p.1 : ℤ) + c3.location.1 - 3, (p.2 : ℤ) + c3.location.2 - 3) := by
  unfold movePhase at h
  split at h
  · left
    injection h with h2
    rw [Prod.mk.injEq] at h2
    exact (congrArg Civ.location h2.1).symm
  · split at h
    · cases hfp : followPath graph grid fuel c3 with
      | exn e => rw [hfp] at h; exact COut.noConfusion h
      | fuelOut => rw [hfp] at h; exact COut.noConfusion h
      | ok lp =>
          obtain ⟨loc2, path2⟩ := lp
          simp only [hfp] at h
          injection h with h2
          rw [Prod.mk.injEq] at h2
          have hloc : c4.location = loc2 := (congrArg Civ.location h2.1).symm
          rcases followPath_loc hfp with h1 | ⟨p, hpmem, hfree, hl2⟩
          · left
            rw [hloc]
            exact h1
          · right
            refine ⟨p, hpmem, hfree, ?_⟩
            rw [hloc]
            exact hl2
    · split at h
      · split at h
        · exact COut.noConfusion h
        · split at h
          · left
            injection h with h2
            rw [Prod.mk.injEq] at h2
            exact (congrArg Civ.location h2.1).symm
          · exact COut.noConfusion h
          · exact COut.noConfusion h
      · split at h
        · left
          injection h with h2
          rw [Prod.mk.injEq] at h2
          exact (congrArg Civ.location h2.1).symm
        · exact COut.noConfusion h
        · exact COut.noConfusion h

/-- Civilian.update either keeps the agent's location, or moves it to a
free road cell read from the live perception window around its old
location. -/
theorem civUpdate_loc {graph : Graph} {grid : List (List Cell)} {fuel : ℕ}
    {safeCells : List Coord} {disasterLoc : Option Coord} {selfIdx : ℕ}
    {agents : List Civ} {c c2 : Civ} {sc2 : List Coord} {r r2 : List ℕ}
    (h : civUpdate graph grid fuel safeCells disasterLoc selfIdx agents c r =
      .ok (c2, sc2, r2)) :
    c2.location = c.location ∨ ∃ p : ℕ × ℕ, p ∈ neighbours ∧
      (∃ cv, perceptionCell grid c.location p.1 p.2 = some cv ∧
        cv.occupant = none ∧ cv.is_road = true) ∧
      c2.location = ((p.1 : ℤ) + c.location.1 - 3, (p.2 : ℤ) + c.location.2 - 3) := by
  unfold civUpdate at h
  split at h
  · left
    injection h with h2
    rw [Prod.mk.injEq] at h2
    exact (congrArg Civ.location h2.1).symm
  · cases hpp : perceptionPhase graph grid fuel safeCells disasterLoc selfIdx agents c r with
    | exn e => rw [hpp] at h; exact COut.noConfusion h
    | fuelOut => rw [hpp] at h; exact COut.noConfusion h
    | ok t =>
        obtain ⟨c2', sc2', r2'⟩ := t
        simp only [hpp] at h
        have hloc2 : c2'.location = c.location := (perceptionPhase_fields hpp).1
        rcases movePhase_loc h with h1 | ⟨p, hpmem, hfree, hl2⟩
        · left
          rw [h1]
          exact hloc2
        · right
          refine ⟨p, hpmem, ?_, ?_⟩
          · rw [← hloc2]
            exact hfree
          · rw [← hloc2]
            exact hl2

theorem get?_some_lt : ∀ {l : List α} {i : ℕ} {a : α},
    l.get? i = some a → i < l.length := by
  intro l
  induction l with
  | nil => intro i a h; cases i <;> exact Option.noConfusion h
  | cons b rest ih =>
      intro i a h
      cases i with
      | zero => simp
      | succ k =>
          have hk := ih h
          simp only [List.length_cons]
          omega

theorem get?_set_same {l : List α} {i : ℕ} {a : α} (h : i < l.length) :
    (l.set i a).get? i = some a := by
  induction l generalizing i with
  | nil => simp at h
  | cons b rest ih =>
      cases i with
      | zero => rfl
      | succ k =>
          show (rest.set k a).get? k = some a
          exact ih (by simp only [List.length_cons] at h; omega)

theorem get?_set_ne {l : List α} {i j : ℕ} {a : α} (h : i ≠ j) :
    (l.set i a).get? j = l.get? j := by
  induction l generalizing i j with
  | nil => simp
  | cons b rest ih =>
      cases i with
      | zero =>
          cases j with
          | zero => exact absurd rfl h
          | succ k => rfl
      | succ k =>
          cases j with
          | zero => rfl
          | succ m => exact ih (by omega)

/-- The occupancy invariant of the claim, over a well-formed post-spawn
world: a rectangular grid at least 8 cells wide and tall, every occupied
cell's occupant agent located exactly there, and every agent in bounds and
the occupant of the cell at its own location. -/
structure OccInv (w : WState) : Prop where
  rect : ∀ row ∈ w.grid, row.length = width w.grid
  hlen : 8 ≤ w.grid.length
  hwid : 8 ≤ width w.grid
  occAgent : ∀ y x cv, cellAtN w.grid y x = some cv → ∀ i, cv.occupant = some i →
    ∃ a, w.agents.get? i = some a ∧ a.location = ((y : ℤ), (x : ℤ))
  agentOcc : ∀ i a, w.agents.get? i = some a →
    0 ≤ a.location.1 ∧ a.location.1 < w.grid.length ∧
    0 ≤ a.location.2 ∧ a.location.2 < width w.grid ∧
    ∃ cv, cellAtN w.grid a.location.1.toNat a.location.2.toNat = some cv ∧
      cv.occupant = some i

/-- Two agents of an occupancy-invariant world never share a location. -/
theorem OccInv.unique {w : WState} (hinv : OccInv w) {i j : ℕ} {a b : Civ}
    (ha : w.agents.get? i = some a) (hb : w.agents.get? j = some b)
    (hl : a.location = b.location) : i = j := by
  obtain ⟨_, _, _, _, cv, hcv, hocc⟩ := hinv.agentOcc i a ha
  obtain ⟨_, _, _, _, cw, hcw, hocc2⟩ := hinv.agentOcc j b hb
  rw [hl] at hcv
  rw [hcv] at hcw
  injection hcw with hcw2
  rw [hcw2] at hocc
  rw [hocc] at hocc2
  injection hocc2

/-- Cell reads through the two occupant writes of the move commit. -/
theorem cellAtN_setOcc2 {g : List (List Cell)} {c d : Coord} {i : ℕ}
    (hrect : ∀ row ∈ g, row.length = width g)
    (ho0 : 0 ≤ c.1) (ho1 : c.1 < g.length) (ho2 : 0 ≤ c.2) (ho3 : c.2 < width g)
    (hn0 : 0 ≤ d.1) (hn1 : d.1 < g.length) (hn2 : 0 ≤ d.2) (hn3 : d.2 < width g)
    (y x : ℕ) :
    cellAtN (setOcc (setOcc g c none) d (some i)) y x =
      if y = d.1.toNat ∧ x = d.2.toNat then
        (cellAtN (setOcc g c none) y x).map
          (fun cell => { cell with occupant := some i })
      else if y = c.1.toNat ∧ x = c.2.toNat then
        (cellAtN g y x).map (fun cell => { cell with occupant := none })
      else cellAtN g y x := by
  have hrect1 : ∀ row ∈ setOcc g c none, row.length = width (setOcc g c none) := by
    intro row hr
    rw [(setOcc_rect hrect).2]
    exact (setOcc_rect hrect).1 row hr
  have hlen1 : (setOcc g c none).length = g.length := setOcc_rows
  have hwid1 : width (setOcc g c none) = width g := setOcc_width
  rw [cellAtN_setOcc hrect1 hn0 (by rw [hlen1]; exact hn1) hn2
    (by rw [hwid1]; exact hn3)]
  by_cases hnew : y = d.1.toNat ∧ x = d.2.toNat
  · rw [if_pos hnew, if_pos hnew]
  · rw [if_neg hnew, if_neg hnew]
    exact cellAtN_setOcc hrect ho0 ho1 ho2 ho3 y x

/-- One iteration of the tick loop preserves the occupancy invariant: the
updated agent either stays (the commit rewrites its own cell) or moves to a
cell its perception showed as unoccupied road, and the commit transfers the
occupant mark transactionally. -/
theorem worldStep_inv {graph : Graph} {fuel : ℕ} {st st2 : WState × List ℕ}
    {i : ℕ} (hinv : OccInv st.1)
    (h : worldStep graph fuel st i = .ok st2) : OccInv st2.1 := by
  obtain ⟨w2, r2⟩ := st2
  simp only [worldStep] at h
  cases hga : st.1.agents.get? i with
  | none =>
      simp only [hga] at h
      injection h with h2
      rw [← h2]
      exact hinv
  | some a =>
      simp only [hga] at h
      cases hcu : civUpdate graph st.1.grid fuel st.1.safeCells st.1.disasterLoc
          i st.1.agents a st.2 with
      | exn e => simp only [hcu] at h; exact COut.noConfusion h
      | fuelOut => simp only [hcu] at h; exact COut.noConfusion h
      | ok t =>
          obtain ⟨a2, sc2, r2'⟩ := t
          simp only [hcu] at h
          injection h with h2
          rw [Prod.mk.injEq] at h2
          obtain ⟨ho0, ho1, ho2, ho3, cvo, hcvo, hocco⟩ :=
            hinv.agentOcc i a hga
          have hilt : i < st.1.agents.length := get?_some_lt hga
          have hdst : (0 ≤ a2.location.1 ∧ a2.location.1 < st.1.grid.length ∧
              0 ≤ a2.location.2 ∧ a2.location.2 < width st.1.grid) ∧
              (a2.location = a.location ∨
                ∃ cv, cellAtN st.1.grid a2.location.1.toNat a2.location.2.toNat =
                  some cv ∧ cv.occupant = none) := by
            rcases civUpdate_loc hcu with h1 | ⟨p, hpmem, ⟨cv, hcv, hoccn, hroad⟩, hl2⟩
            · rw [h1]
              exact ⟨⟨ho0, ho1, ho2, ho3⟩, Or.inl rfl⟩
            · obtain ⟨ry, cx, hry, hcx, hrylt, hcxlt, _, _, hcell⟩ :=
                perceptionCell_aligned hinv.hlen hinv.hwid ho0 ho1 ho2 ho3 hcv
              have hd1 : a2.location.1 = (ry : ℤ) := by
                rw [hl2]
                show (p.1 : ℤ) + a.location.1 - 3 = (ry : ℤ)
                omega
              have hd2 : a2.location.2 = (cx : ℤ) := by
                rw [hl2]
                show (p.2 : ℤ) + a.location.2 - 3 = (cx : ℤ)
                omega
              refine ⟨⟨by omega, by omega, by omega, by omega⟩,
                Or.inr ⟨cv, ?_, hoccn⟩⟩
              rw [show a2.location.1.toNat = ry by omega,
                show a2.location.2.toNat = cx by omega]
              exact hcell
          obtain ⟨⟨hn0, hn1, hn2, hn3⟩, hcontent⟩ := hdst
          have hcells := cellAtN_setOcc2 (c := a.location) (d := a2.location)
            (i := i) hinv.rect ho0 ho1 ho2 ho3 hn0 hn1 hn2 hn3
          have hlen2 : (setOcc (setOcc st.1.grid a.location none) a2.location
              (some i)).length = st.1.grid.length := by
            rw [setOcc_rows, setOcc_rows]
          have hwid2 : width (setOcc (setOcc st.1.grid a.location none) a2.location
              (some i)) = width st.1.grid := by
            rw [setOcc_width, setOcc_width]
          rw [← h2.1]
          refine ⟨?_, ?_, ?_, ?_, ?_⟩
          · intro row hr
            show row.length = width _
            rw [hwid2]
            have hr2 := (setOcc_rect (fun r hrr =>
              (setOcc_rect hinv.rect).2 ▸ (setOcc_rect hinv.rect).1 r hrr)).1 row hr
            rw [hr2, setOcc_width]
          · show 8 ≤ (setOcc _ _ _).length
            rw [hlen2]
            exact hinv.hlen
          · show 8 ≤ width (setOcc _ _ _)
            rw [hwid2]
            exact hinv.hwid
          · -- every occupied cell points back at its agent
            intro y x cv hcell j hoccj
            rw [hcells y x] at hcell
            by_cases hnew : y = a2.location.1.toNat ∧ x = a2.location.2.toNat
            · rw [if_pos hnew] at hcell
              obtain ⟨cw, hcw, hmap⟩ := Option.map_eq_some'.mp hcell
              have hji : j = i := by
                rw [← hmap] at hoccj
                exact (Option.some.inj hoccj).symm
              have hyy : a2.location.1 = (y : ℤ) := by omega
              have hxx : a2.location.2 = (x : ℤ) := by omega
              refine ⟨a2, ?_, Prod.ext_iff.mpr ⟨hyy, hxx⟩⟩
              show (st.1.agents.set i a2).get? j = some a2
              rw [hji]
              exact get?_set_same hilt
            · rw [if_neg hnew] at hcell
              by_cases hold : y = a.location.1.toNat ∧ x = a.location.2.toNat
              · rw [if_pos hold] at hcell
                obtain ⟨cw, hcw, hmap⟩ := Option.map_eq_some'.mp hcell
                rw [← hmap] at hoccj
                exact Option.noConfusion hoccj
              · rw [if_neg hold] at hcell
                obtain ⟨b, hgb, hbl⟩ := hinv.occAgent y x cv hcell j hoccj
                have hji : j ≠ i := by
                  intro hjieq
                  rw [hjieq, hga] at hgb
                  injection hgb with hab
                  apply hold
                  rw [← hab] at hbl
                  have e1 : a.location.1 = (y : ℤ) := by rw [hbl]
                  have e2 : a.location.2 = (x : ℤ) := by rw [hbl]
                  exact ⟨by omega, by omega⟩
                refine ⟨b, ?_, hbl⟩
                show (st.1.agents.set i a2).get? j = some b
                rw [get?_set_ne (fun hc => hji hc.symm)]
                exact hgb
          · -- every agent occupies the cell at its location
            intro j b hgb
            by_cases hji : j = i
            · subst hji
              rw [show (st.1.agents.set j a2).get? j = some a2 from
                get?_set_same hilt] at hgb
              injection hgb with hgb2
              rw [← hgb2]
              refine ⟨hn0, by rw [hlen2]; exact hn1, hn2,
                by rw [hwid2]; exact hn3, ?_⟩
              rw [hcells a2.location.1.toNat a2.location.2.toNat,
                if_pos ⟨rfl, rfl⟩]
              have hg1 : ∃ cw, cellAtN (setOcc st.1.grid a.location none)
                  a2.location.1.toNat a2.location.2.toNat = some cw := by
                rw [cellAtN_setOcc hinv.rect ho0 ho1 ho2 ho3]
                by_cases hold2 : a2.location.1.toNat = a.location.1.toNat ∧
                    a2.location.2.toNat = a.location.2.toNat
                · rw [if_pos hold2, hold2.1, hold2.2, hcvo]
                  exact ⟨_, rfl⟩
                · rw [if_neg hold2]
                  rcases hcontent with h1 | ⟨cv, hcv2, _⟩
                  · exact absurd (by rw [h1]; exact ⟨rfl, rfl⟩) hold2
                  · exact ⟨cv, hcv2⟩
              obtain ⟨cw, hcw⟩ := hg1
              rw [hcw]
              exact ⟨_, rfl, rfl⟩
            · rw [get?_set_ne (fun hc => hji hc.symm)] at hgb
              obtain ⟨hb0, hb1, hb2, hb3, cvb, hcvb, hoccb⟩ :=
                hinv.agentOcc j b hgb
              refine ⟨hb0, by rw [hlen2]; exact hb1, hb2,
                by rw [hwid2]; exact hb3, ?_⟩
              have hbne_old : ¬ (b.location.1.toNat = a.location.1.toNat ∧
                  b.location.2.toNat = a.location.2.toNat) := by
                intro hc
                rw [hc.1, hc.2, hcvo] at hcvb
                injection hcvb with he
                rw [← he] at hoccb
                rw [hocco] at hoccb
                exact hji (Option.some.inj hoccb).symm
              have hbne_new : ¬ (b.location.1.toNat = a2.location.1.toNat ∧
                  b.location.2.toNat = a2.location.2.toNat) := by
                intro hc
                rcases hcontent with h1 | ⟨cv, hcv2, hoccn⟩
                · rw [h1] at hc
                  exact hbne_old hc
                · rw [hc.1, hc.2, hcv2] at hcvb
                  injection hcvb with he
                  rw [← he] at hoccb
                  rw [hoccn] at hoccb
                  exact Option.noConfusion hoccb
              rw [hcells b.location.1.toNat b.location.2.toNat,
                if_neg hbne_new, if_neg hbne_old]
              exact ⟨cvb, hcvb, hoccb⟩

theorem worldUpdateGo_inv {graph : Graph} {fuel : ℕ} :
    ∀ (l : List ℕ) (st out : WState × List ℕ),
    OccInv st.1 → worldUpdateGo graph fuel l st = .ok out → OccInv out.1 := by
  intro l
  induction l with
  | nil =>
      intro st out hv h
      injection h with h2
      rw [← h2]
      exact hv
  | cons i rest ih =>
      intro st out hv h
      unfold worldUpdateGo at h
      cases hws : worldStep graph fuel st i with
      | ok st2 =>
          simp only [hws] at h
          exact ih st2 out (worldStep_inv hv hws) h
      | exn e => simp only [hws] at h; exact COut.noConfusion h
      | fuelOut => simp only [hws] at h; exact COut.noConfusion h

/-- Executable check of the occupancy invariant, for concrete worlds. -/
def checkOcc (w : WState) : Bool :=
  decide (∀ row ∈ w.grid, row.length = width w.grid) &&
  decide (8 ≤ w.grid.length) && decide (8 ≤ width w.grid) &&
  ((List.range w.grid.length).all (fun y =>
    (List.range (width w.grid)).all (fun x =>
      match cellAtN w.grid y x with
      | none => true
      | some cv =>
          match cv.occupant with
          | none => true
          | some i =>
              match w.agents.get? i with
              | none => false
              | some a => decide (a.location = ((y : ℤ), (x : ℤ)))))) &&
  (List.range w.agents.length).all (fun i =>
    match w.agents.get? i with
    | none => true
    | some a =>
        decide (0 ≤ a.location.1) && decide (a.location.1 < (w.grid.length : ℤ)) &&
        decide (0 ≤ a.location.2) && decide (a.location.2 < (width w.grid : ℤ)) &&
        match cellAtN w.grid a.location.1.toNat a.location.2.toNat with
        | none => false
        | some cv => decide (cv.occupant = some i))

theorem OccInv_of_check {w : WState} (h : checkOcc w = true) : OccInv w := by
  unfold checkOcc at h
  rw [Bool.and_eq_true, Bool.and_eq_true, Bool.and_eq_true, Bool.and_eq_true] at h
  obtain ⟨⟨⟨⟨h1, h2⟩, h3⟩, h4⟩, h5⟩ := h
  refine ⟨of_decide_eq_true h1, of_decide_eq_true h2, of_decide_eq_true h3, ?_, ?_⟩
  · intro y x cv hcell i hocc
    have hy : y < w.grid.length := by
      unfold cellAtN at hcell
      cases hry : w.grid.get? y with
      | none => rw [hry] at hcell; exact Option.noConfusion hcell
      | some row => exact get?_some_lt hry
    have hx : x < width w.grid := by
      unfold cellAtN at hcell
      cases hry : w.grid.get? y with
      | none => rw [hry] at hcell; exact Option.noConfusion hcell
      | some row =>
          rw [hry] at hcell
          have hlt : x < row.length := get?_some_lt hcell
          rw [of_decide_eq_true h1 row (List.get?_mem hry)] at hlt
          exact hlt
    have h6 : ((List.range (width w.grid)).all (fun x =>
        match cellAtN w.grid y x with
        | none => true
        | some cv =>
            match cv.occupant with
            | none => true
            | some i =>
                match w.agents.get? i with
                | none => false
                | some a => decide (a.location = ((y : ℤ), (x : ℤ))))) = true :=
      List.all_eq_true.mp h4 y (List.mem_range.mpr hy)
    have h7 := List.all_eq_true.mp h6 x (List.mem_range.mpr hx)
    simp only [hcell, hocc] at h7
    cases hga : w.agents.get? i with
    | none => rw [hga] at h7; exact Bool.noConfusion h7
    | some a =>
        rw [hga] at h7
        exact ⟨a, rfl, of_decide_eq_true h7⟩
  · intro i a hga
    have hi : i < w.agents.length := get?_some_lt hga
    have h6 := List.all_eq_true.mp h5 i (List.mem_range.mpr hi)
    simp only [hga, Bool.and_eq_true] at h6
    obtain ⟨⟨⟨⟨g1, g2⟩, g3⟩, g4⟩, g5⟩ := h6
    refine ⟨of_decide_eq_true g1, of_decide_eq_true g2,
      of_decide_eq_true g3, of_decide_eq_true g4, ?_⟩
    cases hcell : cellAtN w.grid a.location.1.toNat a.location.2.toNat with
    | none => rw [hcell] at g5; exact Bool.noConfusion g5
    | some cv =>
        rw [hcell] at g5
        exact ⟨cv, rfl, of_decide_eq_true g5⟩

/-- C5: starting from any world satisfying the occupancy invariant (the
well-formed post-spawn state), a completed World.update tick preserves it:
every occupied cell's occupant agent is located exactly at that cell, every
agent is the occupant of the cell at its own location, and no two agents
share a location. -/
theorem C5_occupancy_invariant {graph : Graph} {fuel : ℕ} {w w2 : WState}
    {r r2 : List ℕ} (hinv : OccInv w)
    (h : worldUpdate graph fuel w r = .ok (w2, r2)) :
    OccInv w2 ∧ ∀ i j a b, w2.agents.get? i = some a →
      w2.agents.get? j = some b → a.location = b.location → i = j := by
  have hinv2 : OccInv w2 :=
    worldUpdateGo_inv (List.range w.agents.length) (w, r) (w2, r2) hinv h
  exact ⟨hinv2, fun i j a b ha hb hl => hinv2.unique ha hb hl⟩

/-- An 8x8 all-road grid whose cell (3, 3) is occupied by agent 0. -/
def grid8 : List (List Cell) :=
  (List.range 8).map (fun y => (List.range 8).map (fun x =>
    { is_road := true,
      occupant := if y = 3 ∧ x = 3 then some 0 else none,
      disaster := false }))

/-- A healthy wandering civilian at (3, 3) one step away from its target. -/
def civW5 : Civ :=
  { pattern := .wander, health := .healthy, timeToWorsen := none,
    location := (3, 3), target := (4, 4), path := [(4, 4)] }

/-- The world before the witnessed tick. -/
def w5 : WState :=
  { grid := grid8, agents := [civW5], safeCells := [], disasterLoc := none }

/-- The world after the witnessed tick: the agent stepped to (4, 4) and the
occupant mark moved with it. -/
def w5out : WState :=
  { grid := setOcc (setOcc grid8 (3, 3) none) (4, 4) (some 0),
    agents := [{ pattern := .wander, health := .healthy, timeToWorsen := none,
                 location := (4, 4), target := (4, 4), path := [] }],
    safeCells := [], disasterLoc := none }

/-- C5 witness: one concrete tick on the 8x8 world, the invariant checked
by evaluation on the input and carried to the output by the theorem. -/
theorem C5_occupancy_invariant_witness :
    OccInv w5out ∧ ∀ i j a b, w5out.agents.get? i = some a →
      w5out.agents.get? j = some b → a.location = b.location → i = j :=
  @C5_occupancy_invariant [] 0 w5 w5out [] [] (OccInv_of_check (by decide)) rfl

/-! ### C8: the wander-to-flee trigger -/

/-- The per-cell test of check_perception_wander's counter (Agents.py
392-394): the cell's occupant exists and is a civilian currently in
FLEE. -/
def fleeHit (agents : List Civ) (cl : Cell) : Bool :=
  match cl.occupant with
  | some i =>
      match agents.get? i with
      | some a => a.pattern == Pattern.flee
      | none => false
  | none => false

/-- Number of perception cells occupied by fleeing civilians. -/
def fleeCount (agents : List Civ) (cells : List Cell) : ℕ :=
  cells.countP (fleeHit agents)

theorem fleeCount_cons (agents : List Civ) (c : Cell) (rest : List Cell) :
    fleeCount agents (c :: rest) =
      fleeCount agents rest + if fleeHit agents c then 1 else 0 :=
  List.countP_cons _ _ _

theorem scanWanderTrigger_cons (agents : List Civ) (c : Cell)
    (rest : List Cell) (cnt : ℕ) :
    scanWanderTrigger agents (c :: rest) cnt =
      if c.disaster = true ∨ 5 < cnt + (if fleeHit agents c then 1 else 0)
      then true
      else scanWanderTrigger agents rest
        (cnt + (if fleeHit agents c then 1 else 0)) := by
  have hcnt2 : (match c.occupant with
      | some i =>
          match agents.get? i with
          | some a => if a.pattern = .flee then cnt + 1 else cnt
          | none => cnt
      | none => cnt) = cnt + (if fleeHit agents c then 1 else 0) := by
    cases hco : c.occupant with
    | none => simp [fleeHit, hco]
    | some i =>
        cases hga : agents.get? i with
        | none =>
            have hga2 : agents[i]? = none := by
              rw [← List.get?_eq_getElem?]
              exact hga
            simp [fleeHit, hco, hga2]
        | some a =>
            have hga2 : agents[i]? = some a := by
              rw [← List.get?_eq_getElem?]
              exact hga
            by_cases hp : a.pattern = .flee
            · simp [fleeHit, hco, hga2, hp]
            · simp [fleeHit, hco, hga2, hp]
  simp only [scanWanderTrigger]
  rw [hcnt2]

/-- The scan of check_perception_wander fires exactly when the perception
window holds a disaster-marked cell or strictly more than 5 cells occupied
by fleeing civilians (relative to the running count). -/
theorem scanWanderTrigger_iff (agents : List Civ) :
    ∀ (cells : List Cell) (cnt : ℕ), cnt ≤ 5 →
    (scanWanderTrigger agents cells cnt = true ↔
      (∃ cl ∈ cells, cl.disaster = true) ∨ 5 < cnt + fleeCount agents cells) := by
  intro cells
  induction cells with
  | nil =>
      intro cnt hcnt
      simp [scanWanderTrigger, fleeCount]
      omega
  | cons c rest ih =>
      intro cnt hcnt
      rw [scanWanderTrigger_cons]
      by_cases hd : c.disaster = true
      · rw [if_pos (Or.inl hd)]
        constructor
        · intro _
          exact Or.inl ⟨c, List.mem_cons_self _ _, hd⟩
        · intro _
          rfl
      · by_cases h5 : 5 < cnt + (if fleeHit agents c then 1 else 0)
        · rw [if_pos (Or.inr h5)]
          constructor
          · intro _
            right
            rw [fleeCount_cons]
            omega
          · intro _
            rfl
        · rw [if_neg (fun hor => hor.elim hd h5)]
          rw [ih (cnt + (if fleeHit agents c then 1 else 0)) (by omega)]
          constructor
          · rintro (⟨cl, hmem, hcl⟩ | hlt)
            · exact Or.inl ⟨cl, List.mem_cons_of_mem _ hmem, hcl⟩
            · right
              rw [fleeCount_cons]
              omega
          · rintro (⟨cl, hmem, hcl⟩ | hlt)
            · rcases List.mem_cons.mp hmem with hc | hmem2
              · rw [hc] at hcl
                exact absurd hcl hd
              · exact Or.inl ⟨cl, hmem2, hcl⟩
            · right
              rw [fleeCount_cons] at hlt
              omega

/-- The triggered branch of check_perception_wander, unfolded. -/
theorem checkPerceptionWander_eq (graph : Graph) (grid : List (List Cell))
    (fuel : ℕ) (safeCells : List Coord) (agents : List Civ) (d : Coord)
    (c : Civ) (hw : ¬ (c.pattern = .flee ∨ c.pattern = .safe))
    (ht : scanWanderTrigger agents (perceptionCells grid c.location) 0 = true) :
    checkPerceptionWander graph grid fuel safeCells (some d) agents c =
      (match findTargetFlee safeCells (graph.map Prod.fst) c.location d with
       | .error e => .exn e
       | .ok (sc2, t) =>
           match findPath graph c.location t fuel with
           | .ret p => .ok ({ c with pattern := .flee, target := t, path := p }, sc2)
           | .exn e => .exn e
           | .fuelOut => .fuelOut) := by
  unfold checkPerceptionWander
  rw [if_neg hw, if_pos ht]

/-- C8: for every wandering civilian, the perception scan fires exactly
when the window holds a disaster-marked cell or strictly more than 5 cells
occupied by fleeing civilians; without a trigger the civilian is returned
unchanged (its pattern stays WANDER), and with a trigger a successful
check_perception_wander has switched it to FLEE with its target drawn by
find_target and its path recomputed by find_path in that same call. -/
theorem C8_wander_flee_trigger {graph : Graph} {grid : List (List Cell)}
    {fuel : ℕ} {safeCells : List Coord} {agents : List Civ} {d : Coord}
    {c c2 : Civ} {sc2 : List Coord} (hw : c.pattern = .wander) :
    (scanWanderTrigger agents (perceptionCells grid c.location) 0 = true ↔
      (∃ cl ∈ perceptionCells grid c.location, cl.disaster = true) ∨
        5 < fleeCount agents (perceptionCells grid c.location)) ∧
    (scanWanderTrigger agents (perceptionCells grid c.location) 0 = false →
      checkPerceptionWander graph grid fuel safeCells (some d) agents c =
        .ok (c, safeCells)) ∧
    (scanWanderTrigger agents (perceptionCells grid c.location) 0 = true →
      checkPerceptionWander graph grid fuel safeCells (some d) agents c =
        .ok (c2, sc2) →
      c2.pattern = .flee ∧ ∃ t sc3 p,
        findTargetFlee safeCells (graph.map Prod.fst) c.location d =
          .ok (sc3, t) ∧
        findPath graph c.location t fuel = .ret p ∧
        c2.target = t ∧ c2.path = p ∧ sc2 = sc3) := by
  have hnw : ¬ (c.pattern = .flee ∨ c.pattern = .safe) := by
    rw [hw]
    simp
  refine ⟨?_, ?_, ?_⟩
  · have := scanWanderTrigger_iff agents (perceptionCells grid c.location) 0
      (by omega)
    simpa using this
  · intro hfalse
    unfold checkPerceptionWander
    rw [if_neg hnw, if_neg (by rw [hfalse]; simp)]
  · intro htrue hok
    rw [checkPerceptionWander_eq graph grid fuel safeCells agents d c hnw htrue]
      at hok
    cases hft : findTargetFlee safeCells (graph.map Prod.fst) c.location d with
    | error e =>
        rw [hft] at hok
        exact COut.noConfusion hok
    | ok st =>
        obtain ⟨sc3, t⟩ := st
        simp only [hft] at hok
        cases hfp : findPath graph c.location t fuel with
        | ret p =>
            simp only [hfp] at hok
            injection hok with h2
            rw [Prod.mk.injEq] at h2
            exact ⟨(congrArg Civ.pattern h2.1).symm, t, sc3, p, rfl, hfp,
              (congrArg Civ.target h2.1).symm, (congrArg Civ.path h2.1).symm,
              h2.2.symm⟩
        | exn e =>
            simp only [hfp] at hok
            exact COut.noConfusion hok
        | fuelOut =>
            simp only [hfp] at hok
            exact COut.noConfusion hok

/-- An 8x8 all-road grid with agent 0 at (3, 3) and a disaster-marked cell
at (3, 4). -/
def gridW8 : List (List Cell) :=
  (List.range 8).map (fun y => (List.range 8).map (fun x =>
    { is_road := true,
      occupant := if y = 3 ∧ x = 3 then some 0 else none,
      disaster := if y = 3 ∧ x = 4 then true else false }))

/-- A healthy wandering civilian at (3, 3). -/
def cw8 : Civ :=
  { pattern := .wander, health := .healthy, timeToWorsen := none,
    location := (3, 3), target := (3, 3), path := [] }

/-- A shared safe-cell list on which the component-indexing selection lands
on (3, 2). -/
def scW8 : List Coord := [(0, 0), (3, 2), (3, 2), (9, 9)]

/-- The two-cell road graph joining (3, 3) and (3, 2). -/
def graphW8 : Graph := [((3, 3), [(3, 2)]), ((3, 2), [(3, 3)])]

/-- The civilian after the triggered tick: fleeing toward (3, 2) on the
freshly computed path. -/
def c2w8 : Civ :=
  { pattern := .flee, health := .healthy, timeToWorsen := none,
    location := (3, 3), target := (3, 2), path := [(3, 3), (3, 2)] }

/-- C8 witness: on gridW8 the disaster-marked cell triggers the scan, and
check_perception_wander switches the agent to FLEE with target (3, 2) and
the recomputed two-cell path, in the same call. -/
theorem C8_wander_flee_trigger_witness :
    c2w8.pattern = .flee ∧ ∃ t sc3 p,
      findTargetFlee scW8 (graphW8.map Prod.fst) cw8.location (3, 4) =
        .ok (sc3, t) ∧
      findPath graphW8 cw8.location t 5 = .ret p ∧
      c2w8.target = t ∧ c2w8.path = p ∧ scW8 = sc3 :=
  (@C8_wander_flee_trigger graphW8 gridW8 5 scW8 [cw8] (3, 4) cw8 c2w8 scW8
    rfl).2.2 (by decide) rfl

/-! ### C10: the SICK state is unreachable -/

theorem setInjury_ne_sick : ∀ h i : HealthState, setInjury h i ≠ .sick := by
  intro h i
  cases h <;> cases i <;> simp [setInjury]

theorem worsenHealth_sick : ∀ (h : HealthState) (t : Option ℕ),
    (worsenHealth h t).1 = .sick → h = .sick := by
  intro h t
  cases h <;> rcases t with _ | (_ | k) <;> simp [worsenHealth, setInjury]

theorem listModify_mem {l : List α} {i : ℕ} {f : α → α} {x : α}
    (h : x ∈ listModify l i f) : x ∈ l ∨ ∃ y ∈ l, x = f y := by
  induction l generalizing i with
  | nil => simp [listModify] at h
  | cons a rest ih =>
      cases i with
      | zero =>
          rcases List.mem_cons.mp h with h1 | h1
          · exact Or.inr ⟨a, List.mem_cons_self _ _, h1⟩
          · exact Or.inl (List.mem_cons_of_mem _ h1)
      | succ k =>
          rcases List.mem_cons.mp h with h1 | h1
          · exact Or.inl (by rw [h1]; exact List.mem_cons_self _ _)
          · rcases ih h1 with h2 | ⟨y, hy, hxy⟩
            · exact Or.inl (List.mem_cons_of_mem _ h2)
            · exact Or.inr ⟨y, List.mem_cons_of_mem _ hy, hxy⟩

theorem foldl_preserve {α β : Type} (P : α → Prop) (f : α → β → α)
    (hf : ∀ s b, P s → P (f s b)) :
    ∀ (l : List β) (s : α), P s → P (l.foldl f s) := by
  intro l
  induction l with
  | nil => intro s h; exact h
  | cons b rest ih => intro s h; exact ih _ (hf s b h)

/-- The disaster handler assigns health states only through set_injury, so
it never produces SICK. -/
theorem injureNearDisaster_noSick {w : WState} {loc : Coord} {r : List ℕ}
    (h : ∀ a ∈ w.agents, a.health ≠ .sick) :
    ∀ a ∈ (injureNearDisaster w loc r).1.agents, a.health ≠ .sick := by
  simp only [injureNearDisaster]
  intro a ha
  refine foldl_preserve
    (fun st : List Civ × List ℕ => ∀ x ∈ st.1, x.health ≠ HealthState.sick)
    _ ?_ _ (w.agents, r) h a ha
  intro s b hs
  cases hcell : cellAtN w.grid b.1.2 b.2.2 with
  | none => simp only [hcell]; exact hs
  | some cell =>
      simp only [hcell]
      by_cases hroad : cell.is_road = true
      · rw [if_pos hroad]
        cases hocc : cell.occupant with
        | none => exact hs
        | some idx =>
            show ∀ x ∈ (if (b.1.1, b.2.1) ∈ deathRadius then
                (listModify s.1 idx (fun a => { a with health := setInjury a.health HealthState.deceased }), s.2)
              else
                (listModify s.1 idx (fun a => { a with health := setInjury a.health (if s.2.headD 0 % 2 = 0 then HealthState.injured else HealthState.gravelyInjured) }), s.2.tail)).1,
              x.health ≠ HealthState.sick
            by_cases hdr : (b.1.1, b.2.1) ∈ deathRadius
            · rw [if_pos hdr]
              intro x hx
              rcases listModify_mem hx with hx1 | ⟨y, hy, hxy⟩
              · exact hs x hx1
              · rw [hxy]
                exact setInjury_ne_sick y.health HealthState.deceased
            · rw [if_neg hdr]
              intro x hx
              rcases listModify_mem hx with hx1 | ⟨y, hy, hxy⟩
              · exact hs x hx1
              · rw [hxy]
                exact setInjury_ne_sick y.health (if s.2.headD 0 % 2 = 0 then HealthState.injured else HealthState.gravelyInjured)
      · rw [if_neg hroad]
        exact hs

/-- The movement phase never touches health. -/
theorem movePhase_health {graph : Graph} {grid : List (List Cell)} {fuel : ℕ}
    {sc2 : List Coord} {c3 c4 : Civ} {sc3 : List Coord} {r2 r3 : List ℕ}
    (h : movePhase graph grid fuel sc2 c3 r2 = .ok (c4, sc3, r3)) :
    c4.health = c3.health := by
  unfold movePhase at h
  split at h
  · injection h with h2
    rw [Prod.mk.injEq] at h2
    exact (congrArg Civ.health h2.1).symm
  · split at h
    · cases hfp : followPath graph grid fuel c3 with
      | exn e => rw [hfp] at h; exact COut.noConfusion h
      | fuelOut => rw [hfp] at h; exact COut.noConfusion h
      | ok lp =>
          obtain ⟨loc2, path2⟩ := lp
          simp only [hfp] at h
          injection h with h2
          rw [Prod.mk.injEq] at h2
          exact (congrArg Civ.health h2.1).symm
    · split at h
      · split at h
        · exact COut.noConfusion h
        · split at h
          · injection h with h2
            rw [Prod.mk.injEq] at h2
            exact (congrArg Civ.health h2.1).symm
          · exact COut.noConfusion h
          · exact COut.noConfusion h
      · split at h
        · injection h with h2
          rw [Prod.mk.injEq] at h2
          exact (congrArg Civ.health h2.1).symm
        · exact COut.noConfusion h
        · exact COut.noConfusion h

/-- One Civilian.update preserves non-SICKness: perception can only apply
set_injury, worsen_health never invents SICK, movement copies health. -/
theorem civUpdate_health {graph : Graph} {grid : List (List Cell)} {fuel : ℕ}
    {safeCells : List Coord} {disasterLoc : Option Coord} {selfIdx : ℕ}
    {agents : List Civ} {c c2 : Civ} {sc2 : List Coord} {r r2 : List ℕ}
    (h : civUpdate graph grid fuel safeCells disasterLoc selfIdx agents c r =
      .ok (c2, sc2, r2))
    (hs : c.health ≠ .sick) : c2.health ≠ .sick := by
  unfold civUpdate at h
  split at h
  · injection h with h2
    rw [Prod.mk.injEq] at h2
    rw [(congrArg Civ.health h2.1).symm]
    exact hs
  · cases hpp : perceptionPhase graph grid fuel safeCells disasterLoc selfIdx
        agents c r with
    | exn e => rw [hpp] at h; exact COut.noConfusion h
    | fuelOut => rw [hpp] at h; exact COut.noConfusion h
    | ok t =>
        obtain ⟨c2', sc2', r2'⟩ := t
        simp only [hpp] at h
        have hs2 : c2'.health ≠ .sick := by
          rcases (perceptionPhase_fields hpp).2 with h1 | h1
          · rw [h1]; exact hs
          · rw [h1]; exact setInjury_ne_sick _ _
        rw [movePhase_health h]
        intro habs
        exact hs2 (worsenHealth_sick c2'.health c2'.timeToWorsen habs)

theorem worldStep_noSick {graph : Graph} {fuel : ℕ} {st st2 : WState × List ℕ}
    {i : ℕ} (hns : ∀ a ∈ st.1.agents, a.health ≠ .sick)
    (h : worldStep graph fuel st i = .ok st2) :
    ∀ a ∈ st2.1.agents, a.health ≠ .sick := by
  obtain ⟨w2, r2⟩ := st2
  simp only [worldStep] at h
  cases hga : st.1.agents.get? i with
  | none =>
      simp only [hga] at h
      injection h with h2
      rw [← h2]
      exact hns
  | some a =>
      simp only [hga] at h
      cases hcu : civUpdate graph st.1.grid fuel st.1.safeCells st.1.disasterLoc
          i st.1.agents a st.2 with
      | exn e => simp only [hcu] at h; exact COut.noConfusion h
      | fuelOut => simp only [hcu] at h; exact COut.noConfusion h
      | ok t =>
          obtain ⟨a2, sc2, r2'⟩ := t
          simp only [hcu] at h
          injection h with h2
          rw [Prod.mk.injEq] at h2
          rw [← h2.1]
          intro x hx
          rcases List.mem_or_eq_of_mem_set hx with hx1 | hx1
          · exact hns x hx1
          · rw [hx1]
            exact civUpdate_health hcu (hns a (List.get?_mem hga))

theorem worldUpdateGo_noSick {graph : Graph} {fuel : ℕ} :
    ∀ (l : List ℕ) (st out : WState × List ℕ),
    (∀ a ∈ st.1.agents, a.health ≠ .sick) →
    worldUpdateGo graph fuel l st = .ok out →
    ∀ a ∈ out.1.agents, a.health ≠ .sick := by
  intro l
  induction l with
  | nil =>
      intro st out hv h
      injection h with h2
      rw [← h2]
      exact hv
  | cons i rest ih =>
      intro st out hv h
      unfold worldUpdateGo at h
      cases hws : worldStep graph fuel st i with
      | ok st2 =>
          simp only [hws] at h
          exact ih st2 out (worldStep_noSick hv hws) h
      | exn e => simp only [hws] at h; exact COut.noConfusion h
      | fuelOut => simp only [hws] at h; exact COut.noConfusion h

theorem disasterStart_noSick {w : WState} {loc : Coord} {r : List ℕ}
    (h : ∀ a ∈ w.agents, a.health ≠ .sick) :
    ∀ a ∈ (disasterStart w loc r).1.agents, a.health ≠ .sick := by
  unfold disasterStart
  exact injureNearDisaster_noSick h

/-- The states reachable through the core operations of the simulation:
completed World.update ticks and the (spec-modelled) disaster-start
event. -/
inductive Reaches (graph : Graph) (fuel : ℕ) : WState → WState → Prop
  | refl (w : WState) : Reaches graph fuel w w
  | tick {w1 w2 w3 : WState} {r r2 : List ℕ} (h1 : Reaches graph fuel w1 w2)
      (h2 : worldUpdate graph fuel w2 r = .ok (w3, r2)) :
      Reaches graph fuel w1 w3
  | disaster {w1 w2 : WState} (loc : Coord) (r : List ℕ)
      (h1 : Reaches graph fuel w1 w2) :
      Reaches graph fuel w1 (disasterStart w2 loc r).1

/-- C10: the constructor assigns HEALTHY and WANDER, and starting from any
world with no SICK civilian, every state reachable through completed
World.update ticks and disaster events still has no SICK civilian — the
SICK state and its fast-track injury rule are unreachable through the
program's own operations. -/
theorem C10_no_sick {graph : Graph} {fuel : ℕ} {w0 w : WState}
    (h0 : ∀ a ∈ w0.agents, a.health ≠ .sick)
    (hr : Reaches graph fuel w0 w) :
    (∀ a ∈ w.agents, a.health ≠ .sick) ∧
    (∀ loc r c r2, civInit graph fuel loc r = .ok (c, r2) →
      c.health = .healthy ∧ c.pattern = .wander) := by
  constructor
  · induction hr with
    | refl => exact h0
    | tick h1 h2 ih =>
        exact worldUpdateGo_noSick _ _ _ ih h2
    | disaster loc r h1 ih => exact disasterStart_noSick ih
  · intro loc r c r2 hc
    unfold civInit at hc
    split at hc
    · exact COut.noConfusion hc
    · split at hc
      · injection hc with h2
        rw [Prod.mk.injEq] at h2
        exact ⟨(congrArg Civ.health h2.1).symm, (congrArg Civ.pattern h2.1).symm⟩
      · exact COut.noConfusion hc
      · exact COut.noConfusion hc

/-- C10 witness: the one-agent 8x8 world, with reachability discharged at
the start state. -/
theorem C10_no_sick_witness :
    (∀ a ∈ w5.agents, a.health ≠ .sick) ∧
    (∀ loc r c r2, civInit graphW8 5 loc r = .ok (c, r2) →
      c.health = .healthy ∧ c.pattern = .wander) :=
  C10_no_sick (by decide) (Reaches.refl w5)

end DisasterSim
